import Mathlib

/-!
Shallow embedding of the kiln in-memory typed object store
(crates macaw_data, kiln_data, macaw_editor), single-threaded semantics.

Rust sources embedded here:
  - kiln_data/src/record.rs   : RecordWrapper, merge_field
  - macaw_data/src/catalog.rs : Catalog (create, create_from_prototype, get,
    lock, unlock, commit, commit_internal, write_change_log), ChangeRecord,
    CatalogStateInner
  - kiln_data/src/change_log.rs : changes, watermark
  - macaw_data/src/library.rs : Library, Sequencer
  - macaw_editor/src/undo.rs  : UndoRecord, UndoableBundle, WatcherState,
    UndoRedo, PauseScope, CombineScope

Modelling conventions.  RecordId is a plain Nat (dense index).  The shared
Arc state of a catalog is CatalogState; the Sequencer is a Nat counter
threaded through every operation.  Per-record lock booleans are kept, but
blocking is not modelled (claims are about single-threaded executions, the
spec calls multi-thread interleavings out of scope for this development).
The HashSet prototype_instances is modelled as a List Nat in insertion
order; the in-place Mutex insert of create_from_prototype is modelled by
rewriting the stored wrapper slot.  Rust panics (index out of bounds,
checkout of an unregistered type) are modelled as no-ops on states that
claims never reach; every claim carries the validity hypotheses that rule
those inputs out.  The recursion of commit_internal over the prototype
tree terminates in Rust because children always have larger ids; here it
is given explicit fuel, and the public commit passes records.length + 1,
which is strictly more than the depth of any id-increasing prototype
chain, so the fuel never runs out on well-formed states.
-/

set_option linter.unusedVariables false

namespace Kiln

/-- Wrapper around a user record (kiln_data/src/record.rs, RecordWrapper):
prototype linkage plus the inner payload. -/
structure RecordWrapper (R : Type) where
  prototype_id : Option Nat
  prototype_instances : List Nat
  inner : R
deriving DecidableEq, Repr

/-- One change-log entry (macaw_data/src/catalog.rs, ChangeRecord).
old_record is none exactly when the entry records a creation. -/
structure ChangeRecord (R : Type) where
  record_id : Nat
  lsn : Nat
  old_record : Option (RecordWrapper R)
  new_record : RecordWrapper R
deriving DecidableEq, Repr

/-- Per-catalog shared state (macaw_data/src/catalog.rs, CatalogStateInner). -/
structure CatalogState (R : Type) where
  locks : List Bool
  change_log : List (ChangeRecord R)
  records : List (RecordWrapper R)
deriving DecidableEq, Repr

/-- CatalogState::default(): all three sequences empty. -/
def CatalogState.empty (R : Type) : CatalogState R := ⟨[], [], []⟩

instance (R : Type) : Inhabited (CatalogState R) := ⟨CatalogState.empty R⟩

/-- The field-merge helper (kiln_data/src/record.rs, merge_field): keep the
instance value when it differs from the old prototype value, otherwise
adopt the new prototype value. -/
def merge_field {T : Type} [DecidableEq T]
    (instance_field old_prototype_field new_prototype_field : T) : T :=
  if old_prototype_field ≠ instance_field then instance_field
  else new_prototype_field

/-- A record type with k independent fields valued in V whose proto_update
applies the field-merge helper to each field, the shape the spec requires
of every record implementation (Person, Dog in the source tests are
instances of this shape). -/
def proto_update_fields (k : Nat) {V : Type} [DecidableEq V]
    (inst old_proto new_proto : Fin k → V) : Fin k → V :=
  fun F => merge_field (inst F) (old_proto F) (new_proto F)

/-- proto_update for single-Nat-field records, used by concrete witness
states below (the shape of the Dog test record). -/
def proto_update_nat (inst old_proto new_proto : Nat) : Nat :=
  merge_field inst old_proto new_proto

namespace Catalog

variable {R : Type}

/-- Catalog::write_change_log: stamp the entry with the next sequencer LSN
and append it to the change log.  The sequencer counter is the second
component and is incremented exactly once (Sequencer::next). -/
def write_change_log (id : Nat) (old_record : Option (RecordWrapper R))
    (new_record : RecordWrapper R) (st : CatalogState R) (seq : Nat) :
    CatalogState R × Nat :=
  ({ st with change_log := st.change_log ++ [⟨id, seq, old_record, new_record⟩] }, seq + 1)

/-- Catalog::create_internal: append the wrapper and an unlocked flag, then
log the creation.  Returns the fresh RecordId. -/
def create_internal (w : RecordWrapper R) (st : CatalogState R) (seq : Nat) :
    Nat × CatalogState R × Nat :=
  let id := st.records.length
  let st := { st with records := st.records ++ [w], locks := st.locks ++ [false] }
  let (st, seq) := write_change_log id none w st seq
  (id, st, seq)

/-- Catalog::create: new wrapper with no prototype. -/
def create (record : R) (st : CatalogState R) (seq : Nat) :
    Nat × CatalogState R × Nat :=
  create_internal ⟨none, [], record⟩ st seq

/-- Catalog::create_from_prototype: lock the prototype, clone its inner
record into a new wrapper with prototype_id set, then link the child into
the prototype record prototype_instances (an in-place Mutex insert in the
source, modelled by rewriting the stored slot), and unlock. -/
def create_from_prototype (prototype_id : Nat) (st : CatalogState R) (seq : Nat) :
    Nat × CatalogState R × Nat :=
  match st.records[prototype_id]? with
  | none => (0, st, seq)
  | some protoW =>
    let st := { st with locks := st.locks.set prototype_id true }
    let (iid, st, seq) := create_internal ⟨some prototype_id, [], protoW.inner⟩ st seq
    let linked := { protoW with prototype_instances := protoW.prototype_instances ++ [iid] }
    let st := { st with records := st.records.set prototype_id linked }
    let st := { st with locks := st.locks.set prototype_id false }
    (iid, st, seq)

/-- Catalog::get: current inner record at an id. -/
def get (id : Nat) (st : CatalogState R) : Option R :=
  (st.records[id]?).map (·.inner)

/-- Catalog::unlock. -/
def unlock (id : Nat) (st : CatalogState R) : CatalogState R :=
  { st with locks := st.locks.set id false }

/-- One step of the propagation loop body of Catalog::commit_internal:
look up the child, lock it, merge the prototype change into it with
proto_update, recurse through `step`, and unlock.  `old_inner` and
`new_inner` are the prototype record before and after the commit. -/
def commit_child (pu : R → R → R → R)
    (step : Nat → RecordWrapper R → R → CatalogState R → Nat → CatalogState R × Nat)
    (old_inner new_inner : R) (acc : CatalogState R × Nat) (instance_id : Nat) :
    CatalogState R × Nat :=
  match acc.1.records[instance_id]? with
  | none => acc
  | some instance_wrapper =>
    let st := { acc.1 with locks := acc.1.locks.set instance_id true }
    let merged := pu instance_wrapper.inner old_inner new_inner
    let (st, seq) := step instance_id instance_wrapper merged st acc.2
    ({ st with locks := st.locks.set instance_id false }, seq)

/-- Catalog::commit_internal: replace the wrapper at `id` with a new one
carrying the old prototype linkage and the new inner record, log the
change, then depth-first propagate to every child in the old wrapper
prototype_instances.  Fuel bounds the recursion depth; the public commit
passes more fuel than any id-increasing prototype chain can consume. -/
def commit_internal (pu : R → R → R → R) :
    Nat → Nat → RecordWrapper R → R → CatalogState R → Nat → CatalogState R × Nat
  | 0, _, _, _, st, seq => (st, seq)
  | fuel + 1, id, old_record, new_record, st, seq =>
    let new_instance : RecordWrapper R :=
      ⟨old_record.prototype_id, old_record.prototype_instances, new_record⟩
    let st1 : CatalogState R :=
      { st with records := st.records.set id new_instance,
                change_log := st.change_log ++ [⟨id, seq, some old_record, new_instance⟩] }
    old_record.prototype_instances.foldl
      (commit_child pu (commit_internal pu fuel) old_record.inner new_record)
      (st1, seq + 1)

/-- Catalog::commit: read the current wrapper at the locked id and run
commit_internal.  The caller holds the per-record lock; its release
(Locked::drop) is modelled separately by `unlock`. -/
def commit (pu : R → R → R → R) (id : Nat) (new_record : R)
    (st : CatalogState R) (seq : Nat) : CatalogState R × Nat :=
  match st.records[id]? with
  | none => (st, seq)
  | some old_record => commit_internal pu (st.records.length + 1) id old_record new_record st seq

/-- Catalog::watermark: current change-log length. -/
def watermark (st : CatalogState R) : Nat := st.change_log.length

/-- Catalog::changes: copies of the change records with index in
[start_point, end_point), in insertion order. -/
def changes (start_point end_point : Nat) (st : CatalogState R) : List (ChangeRecord R) :=
  (st.change_log.take end_point).drop start_point

end Catalog

namespace Catalog

variable {R : Type}

/-- Ids updated through prototype propagation when committing at `id`,
beyond id itself: the transitive prototype_instances reachable from id,
computed on the pre-commit state, in traversal order. -/
def proto_descendants (st : CatalogState R) : Nat → Nat → List Nat
  | 0, _ => []
  | fuel + 1, id =>
    match st.records[id]? with
    | none => []
    | some w => w.prototype_instances.flatMap fun i => i :: proto_descendants st fuel i

/-- Number of wrapper replacements (each paired with one change-log
append) that commit_internal with the given fuel performs, computed on
the pre-commit state. -/
def commit_count (st : CatalogState R) : Nat → Nat → Nat
  | 0, _ => 0
  | fuel + 1, id =>
    match st.records[id]? with
    | none => 0
    | some w => 1 + (w.prototype_instances.map fun i => commit_count st fuel i).sum

/-- Prototype linkage of a wrapper, without the payload. -/
def wrapper_shape (w : RecordWrapper R) : Option Nat × List Nat :=
  (w.prototype_id, w.prototype_instances)

/-- Linkage shape of the record table at one id. -/
def shape_at (st : CatalogState R) (j : Nat) : Option (Option Nat × List Nat) :=
  (st.records[j]?).map wrapper_shape

/-- Structural well-formedness: every child in a prototype_instances list
has a strictly larger id than its prototype and is in bounds, which
create_from_prototype guarantees by construction (the child id is the
table length at creation time). -/
def WFState (st : CatalogState R) : Prop :=
  ∀ j w, st.records[j]? = some w →
    ∀ i ∈ w.prototype_instances, j < i ∧ i < st.records.length

/-- Everything commit_internal at this fuel guarantees, for every call
whose old wrapper is the current occupant of the slot: linkage shapes are
preserved everywhere, the sequencer only grows, the change log is
extended by exactly commit_count entries whose LSNs lie in the consumed
sequencer window and strictly increase, and slots outside
id :: proto_descendants are untouched. -/
def CommitInternalSpec (pu : R → R → R → R) (fuel : Nat) : Prop :=
  ∀ id oldW v st seq, st.records[id]? = some oldW →
    (∀ j, shape_at (commit_internal pu fuel id oldW v st seq).1 j = shape_at st j) ∧
    seq ≤ (commit_internal pu fuel id oldW v st seq).2 ∧
    (∃ tail, (commit_internal pu fuel id oldW v st seq).1.change_log =
        st.change_log ++ tail ∧
      tail.length = commit_count st fuel id ∧
      (∀ e ∈ tail, seq ≤ e.lsn ∧ e.lsn < (commit_internal pu fuel id oldW v st seq).2) ∧
      List.Pairwise (fun e₁ e₂ => e₁.lsn < e₂.lsn) tail) ∧
    (∀ j, j ≠ id → j ∉ proto_descendants st fuel id →
      (commit_internal pu fuel id oldW v st seq).1.records[j]? = st.records[j]?)

/-- The matching guarantees for the propagation loop over a list of child
ids, starting from an arbitrary accumulator. -/
def CommitChildrenSpec (pu : R → R → R → R) (fuel : Nat) (l : List Nat) : Prop :=
  ∀ old_inner new_inner st seq,
    (∀ j, shape_at
        (l.foldl (commit_child pu (commit_internal pu fuel) old_inner new_inner) (st, seq)).1 j =
      shape_at st j) ∧
    seq ≤ (l.foldl (commit_child pu (commit_internal pu fuel) old_inner new_inner) (st, seq)).2 ∧
    (∃ tail, (l.foldl (commit_child pu (commit_internal pu fuel) old_inner new_inner)
          (st, seq)).1.change_log = st.change_log ++ tail ∧
      tail.length = (l.map fun i => commit_count st fuel i).sum ∧
      (∀ e ∈ tail, seq ≤ e.lsn ∧ e.lsn <
        (l.foldl (commit_child pu (commit_internal pu fuel) old_inner new_inner) (st, seq)).2) ∧
      List.Pairwise (fun e₁ e₂ => e₁.lsn < e₂.lsn) tail) ∧
    (∀ j, j ∉ l.flatMap (fun i => i :: proto_descendants st fuel i) →
      (l.foldl (commit_child pu (commit_internal pu fuel) old_inner new_inner)
        (st, seq)).1.records[j]? = st.records[j]?)

end Catalog

/-- Witness catalog for the commit frame claim: a prototype (id 0) with
one child (id 1), single-Nat-field records. -/
def frameSt : CatalogState Nat :=
  ⟨[false, false], [], [⟨none, [1], 10⟩, ⟨some 0, [], 10⟩]⟩

/-- The Library registry (macaw_data/src/library.rs): a map from the
record-type name to the type-erased shared catalog state.  Modelled for
one record type R as an association list with HashMap::insert semantics:
the freshest binding for a key shadows older ones. -/
structure LibraryMap (R : Type) where
  catalogs : List (String × CatalogState R)

namespace LibraryMap

variable {R : Type}

/-- Library::register: insert a fresh default catalog state under the
type name, replacing any existing binding. -/
def register (type_name : String) (lib : LibraryMap R) : LibraryMap R :=
  ⟨(type_name, CatalogState.empty R) :: lib.catalogs⟩

/-- Library::checkout: the shared catalog state registered under the type
name, if any (the source unwraps and panics when the type is missing). -/
def checkout (type_name : String) (lib : LibraryMap R) : Option (CatalogState R) :=
  lib.catalogs.lookup type_name

end LibraryMap

/-- A Library of catalogs sharing one Sequencer
(macaw_data/src/library.rs).  One catalog per registered record type,
addressed by index here (the type-name string key of the source HashMap
is modelled by LibraryMap above; the index plays the role of the record
type), plus the shared next_lsn counter of the Sequencer. -/
structure Library (R : Type) where
  catalogs : List (CatalogState R)
  seq : Nat
deriving DecidableEq, Repr

/-- One top-level mutation of a Library: a create, a
create_from_prototype, or a lock/commit/unlock, on one catalog. -/
inductive LibOp (R : Type) where
  | create : Nat → R → LibOp R
  | create_from_prototype : Nat → Nat → LibOp R
  | commit : Nat → Nat → R → LibOp R
deriving DecidableEq, Repr

namespace Library

variable {R : Type}

/-- A Library with n registered catalogs and a fresh Sequencer. -/
def init (R : Type) (n : Nat) : Library R :=
  ⟨List.replicate n (CatalogState.empty R), 0⟩

/-- Catalog::create on catalog c, threading the shared sequencer. -/
def create_at (c : Nat) (r : R) (lib : Library R) : Library R :=
  match lib.catalogs[c]? with
  | none => lib
  | some cat =>
    let res := Catalog.create r cat lib.seq
    ⟨lib.catalogs.set c res.2.1, res.2.2⟩

/-- Catalog::create_from_prototype on catalog c. -/
def create_from_prototype_at (c pid : Nat) (lib : Library R) : Library R :=
  match lib.catalogs[c]? with
  | none => lib
  | some cat =>
    let res := Catalog.create_from_prototype pid cat lib.seq
    ⟨lib.catalogs.set c res.2.1, res.2.2⟩

/-- Catalog::lock, Catalog::commit, then Locked::drop (unlock) on
catalog c of the Library. -/
def lock_commit (pu : R → R → R → R) (c id : Nat) (v : R) (lib : Library R) : Library R :=
  match lib.catalogs[c]? with
  | none => lib
  | some cat =>
    let cat := { cat with locks := cat.locks.set id true }
    let res := Catalog.commit pu id v cat lib.seq
    ⟨lib.catalogs.set c (Catalog.unlock id res.1), res.2⟩

/-- Dispatch one operation. -/
def apply_op (pu : R → R → R → R) (lib : Library R) : LibOp R → Library R
  | .create c r => create_at c r lib
  | .create_from_prototype c pid => create_from_prototype_at c pid lib
  | .commit c id v => lock_commit pu c id v lib

/-- Run a list of operations from a fresh Library with n catalogs. -/
def run_ops (pu : R → R → R → R) (n : Nat) (ops : List (LibOp R)) : Library R :=
  ops.foldl (apply_op pu) (init R n)

/-- All LSNs of all change logs of the Library, catalog by catalog in
append order. -/
def all_lsns (lib : Library R) : List Nat :=
  lib.catalogs.flatMap fun cat => cat.change_log.map (·.lsn)

/-- The LSNs of catalog c, in append order. -/
def cat_lsns (lib : Library R) (c : Nat) : List Nat :=
  ((lib.catalogs[c]?).map fun cat => cat.change_log.map (·.lsn)).getD []

/-- Total number of change records across the Library. -/
def total_log_len (lib : Library R) : Nat :=
  (lib.catalogs.map fun cat => cat.change_log.length).sum

/-- Number of change records an operation appends: one for a create, one
for a create_from_prototype, and for a commit one per performed update
(the committed record plus each propagated descendant update), which is
commit_count.  Operations on missing catalogs or records append none
(the source panics on those instead). -/
def op_append_count (lib : Library R) : LibOp R → Nat
  | .create c _ => if (lib.catalogs[c]?).isSome then 1 else 0
  | .create_from_prototype c pid =>
    match lib.catalogs[c]? with
    | none => 0
    | some cat => if (cat.records[pid]?).isSome then 1 else 0
  | .commit c id _ =>
    match lib.catalogs[c]? with
    | none => 0
    | some cat => Catalog.commit_count cat (cat.records.length + 1) id

/-- The LSN discipline invariant: every logged LSN is below the
sequencer, LSNs are globally pairwise distinct, and each catalog log is
strictly increasing. -/
def LibInv (lib : Library R) : Prop :=
  (∀ x ∈ all_lsns lib, x < lib.seq) ∧
  List.Pairwise (· ≠ ·) (all_lsns lib) ∧
  ∀ c, List.Pairwise (· < ·) (cat_lsns lib c)

end Library

/-- One harvested change as an undoable operation
(macaw_editor/src/undo.rs, UndoRecord<R>).  The catalog index stands for
the record type parameter R of the source generic. -/
structure UndoRecord (R : Type) where
  catalog_idx : Nat
  record_id : Nat
  old_record : Option R
  new_record : R
  lsn : Nat
deriving DecidableEq, Repr

/-- A history stack element (macaw_editor/src/undo.rs, dyn Undoable):
either a single UndoRecord or an UndoableBundle.  Watchers only produce
UndoRecords and drop_combine_scope bundles exactly what the watchers
produced, so bundle members are always UndoRecords. -/
inductive Undoable (R : Type) where
  | single : UndoRecord R → Undoable R
  | bundle : List (UndoRecord R) → Undoable R
deriving DecidableEq, Repr

/-- Undoable::lsn: a single record carries its own LSN; a bundle reports
the LSN of its last member (the source panics on an empty bundle,
modelled by the default 0 on an input the engine never builds). -/
def Undoable.lsnD {R : Type} : Undoable R → Nat
  | .single u => u.lsn
  | .bundle l => ((l.getLast?).map (·.lsn)).getD 0

/-- Insert into a list already sorted ascending by LSN, before the first
strictly larger key, keeping the insertee in front of later-arriving
equal keys. -/
def insert_by_lsn {R : Type} (u : UndoRecord R) : List (UndoRecord R) → List (UndoRecord R)
  | [] => [u]
  | v :: rest => if u.lsn ≤ v.lsn then u :: v :: rest else v :: insert_by_lsn u rest

/-- The stable ascending sort by LSN used by
UndoRedo::undoables_for_consumption (Vec::sort_by over lsn). -/
def sort_by_lsn {R : Type} : List (UndoRecord R) → List (UndoRecord R)
  | [] => []
  | u :: rest => insert_by_lsn u (sort_by_lsn rest)

/-- WatcherState<R>: the consumed watermark of one watched catalog. -/
structure Watcher where
  catalog_idx : Nat
  cur_watermark : Nat
deriving DecidableEq, Repr

/-- The UndoRedo engine: the shared Library, the two history stacks, and
one watcher per watched record type. -/
structure UndoRedo (R : Type) where
  library : Library R
  undo_stack : List (Undoable R)
  redo_stack : List (Undoable R)
  watchers : List Watcher
deriving DecidableEq, Repr

namespace UndoRedo

variable {R : Type}

/-- The UndoRecord a watcher materializes from one ChangeRecord of the
catalog it watches. -/
def undo_of_change (c : Nat) (ch : ChangeRecord R) : UndoRecord R :=
  ⟨c, ch.record_id, ch.old_record.map (·.inner), ch.new_record.inner, ch.lsn⟩

/-- WatcherState::consume_change_log: every change between the stored
watermark and the current one, materialized as UndoRecords; the stored
watermark advances to current. -/
def consume_change_log (lib : Library R) (w : Watcher) : List (UndoRecord R) × Watcher :=
  match lib.catalogs[w.catalog_idx]? with
  | none => ([], w)
  | some cat =>
    ((Catalog.changes w.cur_watermark (Catalog.watermark cat) cat).map
      (undo_of_change w.catalog_idx),
     ⟨w.catalog_idx, Catalog.watermark cat⟩)

/-- WatcherState::advance_watermark: advance without emitting. -/
def advance_watermark (lib : Library R) (w : Watcher) : Watcher :=
  match lib.catalogs[w.catalog_idx]? with
  | none => w
  | some cat => ⟨w.catalog_idx, Catalog.watermark cat⟩

/-- The watcher loop of UndoRedo::undoables_for_consumption: drain each
watcher in order, recording whether any of them yielded changes (in the
source each nonempty yield clears the redo stack on the spot; the net
effect is captured by the flag). -/
def consume_watchers (lib : Library R) :
    List Watcher → List (UndoRecord R) × List Watcher × Bool
  | [] => ([], [], false)
  | w :: ws =>
    let cw := consume_change_log lib w
    let rest := consume_watchers lib ws
    (cw.1 ++ rest.1, cw.2 :: rest.2.1, !cw.1.isEmpty || rest.2.2)

/-- UndoRedo::undoables_for_consumption: drain every watcher, clear the
redo stack when anything new arrived, and sort the combined undoables
ascending by LSN. -/
def undoables_for_consumption (e : UndoRedo R) : List (UndoRecord R) × UndoRedo R :=
  let res := consume_watchers e.library e.watchers
  (sort_by_lsn res.1,
   { e with watchers := res.2.1,
            redo_stack := if res.2.2 then [] else e.redo_stack })

/-- UndoRedo::consume_change_logs: append the drained undoables (each a
single) to the undo stack. -/
def consume_change_logs (e : UndoRedo R) : UndoRedo R :=
  let res := undoables_for_consumption e
  { res.2 with undo_stack := res.2.undo_stack ++ res.1.map Undoable.single }

/-- UndoRecord::undo: when an old record exists, lock and commit it back;
a creation record (old_record = none) replays nothing. -/
def undo_record_undo (pu : R → R → R → R) (u : UndoRecord R) (lib : Library R) : Library R :=
  match u.old_record with
  | none => lib
  | some old => Library.lock_commit pu u.catalog_idx u.record_id old lib

/-- UndoRecord::redo: lock and commit the new record. -/
def undo_record_redo (pu : R → R → R → R) (u : UndoRecord R) (lib : Library R) : Library R :=
  Library.lock_commit pu u.catalog_idx u.record_id u.new_record lib

/-- Undoable::undo: a bundle replays its members in reverse order. -/
def undoable_undo (pu : R → R → R → R) : Undoable R → Library R → Library R
  | .single u, lib => undo_record_undo pu u lib
  | .bundle l, lib => l.reverse.foldl (fun acc u => undo_record_undo pu u acc) lib

/-- Undoable::redo: a bundle replays its members in forward order. -/
def undoable_redo (pu : R → R → R → R) : Undoable R → Library R → Library R
  | .single u, lib => undo_record_redo pu u lib
  | .bundle l, lib => l.foldl (fun acc u => undo_record_redo pu u acc) lib

/-- UndoRedo::advance_watermarks. -/
def advance_watermarks (e : UndoRedo R) : UndoRedo R :=
  { e with watchers := e.watchers.map (advance_watermark e.library) }

/-- UndoRedo::undo: reconcile, pop the top undoable, replay its inverse,
move it to the redo stack, and advance the watermarks past the replay. -/
def undo (pu : R → R → R → R) (e : UndoRedo R) : UndoRedo R :=
  let e := consume_change_logs e
  match e.undo_stack.getLast? with
  | none => e
  | some top =>
    advance_watermarks
      { e with undo_stack := e.undo_stack.dropLast,
               library := undoable_undo pu top e.library,
               redo_stack := e.redo_stack ++ [top] }

/-- UndoRedo::redo: symmetric to undo on the redo stack. -/
def redo (pu : R → R → R → R) (e : UndoRedo R) : UndoRedo R :=
  let e := consume_change_logs e
  match e.redo_stack.getLast? with
  | none => e
  | some top =>
    advance_watermarks
      { e with redo_stack := e.redo_stack.dropLast,
               library := undoable_redo pu top e.library,
               undo_stack := e.undo_stack ++ [top] }

/-- UndoRedo::pause_scope: reconcile on entry; the returned handle is the
engine itself. -/
def pause_scope_enter (e : UndoRedo R) : UndoRedo R := consume_change_logs e

/-- PauseScope::drop: advance every watermark, discarding the scope. -/
def pause_scope_release (e : UndoRedo R) : UndoRedo R := advance_watermarks e

/-- UndoRedo::combine_scope: reconcile on entry. -/
def combine_scope_enter (e : UndoRedo R) : UndoRedo R := consume_change_logs e

/-- UndoRedo::drop_combine_scope: drain all watchers into one sorted
Bundle and push it, unless nothing changed inside the scope. -/
def combine_scope_release (e : UndoRedo R) : UndoRedo R :=
  let res := undoables_for_consumption e
  if res.1.isEmpty then res.2
  else { res.2 with undo_stack := res.2.undo_stack ++ [Undoable.bundle res.1] }

/-- A user edit sequence performed while a scope is open: each triple is
a lock/commit/unlock of a value onto a record of a catalog, through the
shared Library the engine also holds. -/
def apply_edits (pu : R → R → R → R) (edits : List (Nat × Nat × R)) (lib : Library R) :
    Library R :=
  edits.foldl (fun acc ed => Library.lock_commit pu ed.1 ed.2.1 ed.2.2 acc) lib

/-- The same edit sequence, paired with the UndoRecords the watchers will
later harvest for it: one record per edit that hits an existing record,
carrying the pre-edit value, the committed value, and the LSN the
sequencer issues. -/
def scope_trace (pu : R → R → R → R) :
    List (Nat × Nat × R) → Library R → List (UndoRecord R) × Library R
  | [], lib => ([], lib)
  | ed :: rest, lib =>
    match lib.catalogs[ed.1]? with
    | none => scope_trace pu rest (Library.lock_commit pu ed.1 ed.2.1 ed.2.2 lib)
    | some cat =>
      match cat.records[ed.2.1]? with
      | none => scope_trace pu rest (Library.lock_commit pu ed.1 ed.2.1 ed.2.2 lib)
      | some w =>
        let res := scope_trace pu rest (Library.lock_commit pu ed.1 ed.2.1 ed.2.2 lib)
        ((⟨ed.1, ed.2.1, some w.inner, ed.2.2, lib.seq⟩ : UndoRecord R) :: res.1, res.2)

end UndoRedo

/-- Linkage shape of one record slot of one catalog of a Library. -/
def lib_shape_at {R : Type} (lib : Library R) (c j : Nat) :
    Option (Option (Option Nat × List Nat)) :=
  (lib.catalogs[c]?).map fun cat => Catalog.shape_at cat j

/-- The record table of one catalog of a Library. -/
def records_at {R : Type} (lib : Library R) (c : Nat) : Option (List (RecordWrapper R)) :=
  (lib.catalogs[c]?).map (·.records)

/-- A record that exists and has no prototype instances, so that a commit
onto it replaces just its own slot and appends one log entry. -/
def simple_target {R : Type} (lib : Library R) (c id : Nat) : Prop :=
  ∃ p, lib_shape_at lib c id = some (some (p, []))

/-- One watcher is up to date: its watermark equals the current length of
the change log it watches (vacuous for a watcher on a missing catalog,
which never yields anything). -/
def watcher_current {R : Type} (lib : Library R) (w : Watcher) : Prop :=
  match lib.catalogs[w.catalog_idx]? with
  | none => True
  | some cat => w.cur_watermark = cat.change_log.length

instance {R : Type} (lib : Library R) (w : Watcher) : Decidable (watcher_current lib w) := by
  unfold watcher_current
  cases lib.catalogs[w.catalog_idx]? with
  | none => exact isTrue trivial
  | some cat => exact Nat.decEq _ _

/-- Every watcher of the engine is up to date. -/
def watchers_current {R : Type} (e : UndoRedo R) : Prop :=
  ∀ w ∈ e.watchers, watcher_current e.library w

instance {R : Type} (e : UndoRedo R) : Decidable (watchers_current e) := by
  unfold watchers_current
  exact List.decidableBAll _ _

/-- Concrete catalog for counterexamples and witnesses: one record,
created as 0 and then committed to 1. -/
def cat8 : CatalogState Nat :=
  ⟨[false],
   [⟨0, 0, none, ⟨none, [], 0⟩⟩, ⟨0, 1, some ⟨none, [], 0⟩, ⟨none, [], 1⟩⟩],
   [⟨none, [], 1⟩]⟩

/-- Concrete engine: the catalog above with both its changes still
unconsumed by the single watcher, empty stacks. -/
def engine8 : UndoRedo Nat := ⟨⟨[cat8], 2⟩, [], [], [⟨0, 0⟩]⟩

/-- Concrete engine whose watcher is current and whose undo stack holds
the creation record of record 0. -/
def engine9 : UndoRedo Nat :=
  ⟨⟨[cat8], 2⟩, [Undoable.single ⟨0, 0, none, 0, 0⟩], [], [⟨0, 2⟩]⟩

/-- Concrete engine whose watcher is current and whose undo stack holds
the commit record of record 0 (value 0 → 1). -/
def engine4 : UndoRedo Nat :=
  ⟨⟨[cat8], 2⟩, [Undoable.single ⟨0, 0, some 0, 1, 1⟩], [], [⟨0, 2⟩]⟩

/-- engine4 after a pause scope in which record 0 was committed to 5. -/
def scope4 : UndoRedo Nat :=
  UndoRedo.pause_scope_release
    { UndoRedo.pause_scope_enter engine4 with
      library := UndoRedo.apply_edits proto_update_nat [(0, 0, 5)]
        (UndoRedo.pause_scope_enter engine4).library }

/-- The catalog of engine4 after the pause-scope edit. -/
def cat4post : CatalogState Nat :=
  ⟨[false],
   cat8.change_log ++ [⟨0, 2, some ⟨none, [], 1⟩, ⟨none, [], 5⟩⟩],
   [⟨none, [], 5⟩]⟩

/-- Two-field record with both fields set to x, for witness states. -/
def chainRecord (x : Nat) : Fin 2 → Nat := fun _ => x

/-- Witness chain root A: id 0, one child (id 1), both fields 10. -/
def chainW0 : RecordWrapper (Fin 2 → Nat) := ⟨none, [1], chainRecord 10⟩

/-- Witness chain middle B: id 1, prototype 0, one child (id 2), field 0
locally overridden to 99, field 1 still matching the prototype. -/
def chainW1 : RecordWrapper (Fin 2 → Nat) :=
  ⟨some 0, [2], fun F => if F.val = 0 then 99 else 10⟩

/-- Witness chain leaf C: id 2, prototype 1, no children, both fields 10. -/
def chainW2 : RecordWrapper (Fin 2 → Nat) := ⟨some 1, [], chainRecord 10⟩

/-- Witness catalog holding the prototype chain 0 → 1 → 2. -/
def chainSt : CatalogState (Fin 2 → Nat) :=
  ⟨[false, false, false], [], [chainW0, chainW1, chainW2]⟩

/-- The full combine-scope round trip: enter the scope, perform the edits
through the shared Library, and release the scope
(UndoRedo::combine_scope followed by drop of the returned handle). -/
def scope_run {R : Type} (pu : R → R → R → R) (edits : List (Nat × Nat × R))
    (e : UndoRedo R) : UndoRedo R :=
  UndoRedo.combine_scope_release
    { UndoRedo.combine_scope_enter e with
      library := UndoRedo.apply_edits pu edits (UndoRedo.combine_scope_enter e).library }

/-- Witness catalog: one record of value 5, its creation logged at LSN 0. -/
def catC3a : CatalogState Nat :=
  ⟨[false], [⟨0, 0, none, ⟨none, [], 5⟩⟩], [⟨none, [], 5⟩]⟩

/-- Witness catalog: one record of value 7, its creation logged at LSN 1. -/
def catC3b : CatalogState Nat :=
  ⟨[false], [⟨0, 1, none, ⟨none, [], 7⟩⟩], [⟨none, [], 7⟩]⟩

/-- Two-catalog witness engine with one current watcher per catalog. -/
def engineC3 : UndoRedo Nat :=
  ⟨⟨[catC3a, catC3b], 2⟩, [], [], [⟨0, 1⟩, ⟨1, 1⟩]⟩

/-- Witness edit sequence: two commits onto record 0 of catalog 0 with a
commit onto record 0 of catalog 1 in between. -/
def editsC3 : List (Nat × Nat × Nat) := [(0, 0, 10), (1, 0, 20), (0, 0, 30)]

/-- One-catalog library built by the public API: prototype record 0
created as 10, record 1 created from it (inheriting 10), then record 1
committed to the local override 5. -/
def libC3x : Library Nat :=
  Library.lock_commit proto_update_nat 0 1 5
    (Library.create_from_prototype_at 0 0
      (Library.create_at 0 10 (Library.init Nat 1)))

/-- Engine over libC3x with one current watcher and empty stacks. -/
def engineC3x : UndoRedo Nat := ⟨libC3x, [], [], [⟨0, 3⟩]⟩

/-- Sanity check executed by the kernel: committing onto the root of the
chain 0 → 1 → 2 (all sharing the value 10) propagates the new value 20 to
every descendant and appends three change records. -/
example :
    (let s0 := Catalog.create 10 (CatalogState.empty Nat) 0
     let s1 := Catalog.create_from_prototype 0 s0.2.1 s0.2.2
     let s2 := Catalog.create_from_prototype 1 s1.2.1 s1.2.2
     let sf := Catalog.commit proto_update_nat 0 20 s2.2.1 s2.2.2
     (Catalog.get 0 sf.1, Catalog.get 1 sf.1, Catalog.get 2 sf.1,
      sf.1.change_log.length, sf.2)) =
    (some 20, some 20, some 20, 6, 6) := by decide

/-- Sanity check: a local override survives a prototype commit.  Record 1
overrides to 30 (propagating 30 to record 2); a later commit of 20 onto
record 0 leaves records 1 and 2 at 30. -/
example :
    (let s0 := Catalog.create 10 (CatalogState.empty Nat) 0
     let s1 := Catalog.create_from_prototype 0 s0.2.1 s0.2.2
     let s2 := Catalog.create_from_prototype 1 s1.2.1 s1.2.2
     let s3 := Catalog.commit proto_update_nat 1 30 s2.2.1 s2.2.2
     let sf := Catalog.commit proto_update_nat 0 20 s3.1 s3.2
     (Catalog.get 0 sf.1, Catalog.get 1 sf.1, Catalog.get 2 sf.1)) =
    (some 20, some 30, some 30) := by decide

/-- C6: for every input triple (instance_field, old_proto_field,
new_proto_field) of any type with decidable value equality, merge_field
returns instance_field when it differs from old_proto_field, and
otherwise returns new_proto_field. -/
theorem merge_field_override_rule {T : Type} [DecidableEq T]
    (instance_field old_proto_field new_proto_field : T) :
    merge_field instance_field old_proto_field new_proto_field =
      if instance_field = old_proto_field then new_proto_field else instance_field := by
  unfold merge_field
  by_cases h : instance_field = old_proto_field <;> simp [h, Ne, eq_comm]

/-- C10: registering a type name again replaces the stored catalog state
with a fresh empty one, whatever was registered before: every checkout
made after the new register observes the empty state, in which no
previously created RecordId resolves to a record. -/
theorem register_again_resets_catalog {R : Type} (lib : LibraryMap R) (type_name : String) :
    LibraryMap.checkout type_name (LibraryMap.register type_name lib) =
        some (CatalogState.empty R) ∧
      ∀ id : Nat, Catalog.get id (CatalogState.empty R) = none := by
  constructor
  · simp [LibraryMap.checkout, LibraryMap.register, List.lookup]
  · intro id
    simp [Catalog.get, CatalogState.empty]

section ChainPropagation

variable {k : Nat} {V : Type} [DecidableEq V]

/-- C1: for a prototype chain A → B → C (ids a < b < c as built by
create_from_prototype) in one catalog of fieldwise-merging records, after
a single-threaded commit of value v onto A: every field F of B that
equalled the pre-commit value of A now equals the post-commit value v F,
every other field of B is unchanged, and the same relation holds between
the pre/post values of B and C. -/
theorem commit_propagates_chain
    (st : CatalogState (Fin k → V)) (seq : Nat) (a b c : Nat)
    (wA wB wC : RecordWrapper (Fin k → V)) (v : Fin k → V)
    (hab : a < b) (hbc : b < c) (hc : c < st.records.length)
    (hA : st.records[a]? = some wA) (hAi : wA.prototype_instances = [b])
    (hB : st.records[b]? = some wB) (hBi : wB.prototype_instances = [c])
    (hC : st.records[c]? = some wC) (hCi : wC.prototype_instances = []) :
    ∃ wB' wC',
      (Catalog.commit (proto_update_fields k) a v st seq).1.records[b]? = some wB' ∧
      (Catalog.commit (proto_update_fields k) a v st seq).1.records[c]? = some wC' ∧
      (∀ F, (wB.inner F = wA.inner F → wB'.inner F = v F) ∧
            (wB.inner F ≠ wA.inner F → wB'.inner F = wB.inner F)) ∧
      (∀ F, (wC.inner F = wB.inner F → wC'.inner F = wB'.inner F) ∧
            (wC.inner F ≠ wB.inner F → wC'.inner F = wC.inner F)) := by
  have hba : b ≠ a := by omega
  have hca : c ≠ a := by omega
  have hcb : c ≠ b := by omega
  have hab' : a ≠ b := by omega
  have hac : a ≠ c := by omega
  have hbc' : b ≠ c := by omega
  have hblen : b < st.records.length := by omega
  obtain ⟨m, hm⟩ : ∃ m, st.records.length = m + 2 := ⟨st.records.length - 2, by omega⟩
  set pu := proto_update_fields (V := V) k with hpu
  set wA' : RecordWrapper (Fin k → V) := ⟨wA.prototype_id, wA.prototype_instances, v⟩ with hwA'
  set wB' : RecordWrapper (Fin k → V) :=
    ⟨wB.prototype_id, wB.prototype_instances, pu wB.inner wA.inner v⟩ with hwB'
  set wC' : RecordWrapper (Fin k → V) :=
    ⟨wC.prototype_id, wC.prototype_instances, pu wC.inner wB.inner (pu wB.inner wA.inner v)⟩
    with hwC'
  have hgetB : ((st.records.set a wA').set b wB')[b]? = some wB' := by
    rw [List.getElem?_set_self']
    simp [List.length_set, hblen]
  have hgetC : (((st.records.set a wA').set b wB').set c wC')[c]? = some wC' := by
    rw [List.getElem?_set_self']
    simp [List.length_set, hc]
  have hres :
      (Catalog.commit pu a v st seq).1.records =
        ((st.records.set a wA').set b wB').set c wC' := by
    simp only [Catalog.commit, hA, hm]
    simp only [Catalog.commit_internal, hAi, List.foldl_cons, List.foldl_nil]
    simp only [Catalog.commit_child, List.getElem?_set_ne hab', hB]
    simp only [Catalog.commit_internal, hBi, List.foldl_cons, List.foldl_nil]
    simp only [Catalog.commit_child, List.getElem?_set_ne hac, List.getElem?_set_ne hbc', hC]
    simp only [Catalog.commit_internal, hCi, List.foldl_nil]
    rw [hwA', hwB', hwC', hAi, hBi, hCi]
  refine ⟨wB', wC', ?_, ?_, ?_, ?_⟩
  · rw [hres, List.getElem?_set_ne hcb, hgetB]
  · rw [hres, hgetC]
  · intro F
    constructor
    · intro hEq
      simp [hwB', hpu, proto_update_fields, merge_field, hEq]
    · intro hNe
      simp [hwB', hpu, proto_update_fields, merge_field]
      intro h
      exact absurd h.symm hNe
  · intro F
    constructor
    · intro hEq
      simp [hwC', hwB', hpu, proto_update_fields, merge_field, hEq]
    · intro hNe
      simp [hwC', hpu, proto_update_fields, merge_field]
      intro h
      exact absurd h.symm hNe

end ChainPropagation

/-- Witness for C1: the chain theorem applied to the concrete catalog
chainSt with a commit of value 20 onto the root. -/
theorem commit_propagates_chain_witness :
    ((0:Nat) < 1 ∧ (1:Nat) < 2 ∧ 2 < chainSt.records.length ∧
      chainSt.records[0]? = some chainW0 ∧ chainW0.prototype_instances = [1] ∧
      chainSt.records[1]? = some chainW1 ∧ chainW1.prototype_instances = [2] ∧
      chainSt.records[2]? = some chainW2 ∧ chainW2.prototype_instances = []) ∧
    (∃ wB' wC',
      (Catalog.commit (proto_update_fields 2) 0 (chainRecord 20) chainSt 0).1.records[1]? =
          some wB' ∧
      (Catalog.commit (proto_update_fields 2) 0 (chainRecord 20) chainSt 0).1.records[2]? =
          some wC' ∧
      (∀ F, (chainW1.inner F = chainW0.inner F → wB'.inner F = chainRecord 20 F) ∧
            (chainW1.inner F ≠ chainW0.inner F → wB'.inner F = chainW1.inner F)) ∧
      (∀ F, (chainW2.inner F = chainW1.inner F → wC'.inner F = wB'.inner F) ∧
            (chainW2.inner F ≠ chainW1.inner F → wC'.inner F = chainW2.inner F))) :=
  ⟨⟨by decide, by decide, by decide, rfl, rfl, rfl, rfl, rfl, rfl⟩,
   commit_propagates_chain chainSt 0 0 1 2 chainW0 chainW1 chainW2 (chainRecord 20)
     (by decide) (by decide) (by decide) rfl rfl rfl rfl rfl rfl⟩

open Catalog in
theorem proto_descendants_invalid {R : Type} {st : CatalogState R} {i : Nat}
    (h : st.records[i]? = none) (fuel : Nat) : proto_descendants st fuel i = [] := by
  cases fuel <;> simp [proto_descendants, h]

open Catalog in
theorem commit_count_invalid {R : Type} {st : CatalogState R} {i : Nat}
    (h : st.records[i]? = none) (fuel : Nat) : commit_count st fuel i = 0 := by
  cases fuel <;> simp [commit_count, h]

open Catalog in
theorem proto_descendants_congr {R : Type} {st₁ st₂ : CatalogState R}
    (h : ∀ j, shape_at st₁ j = shape_at st₂ j) :
    ∀ fuel i, proto_descendants st₁ fuel i = proto_descendants st₂ fuel i := by
  intro fuel
  induction fuel with
  | zero => intro i; rfl
  | succ fuel ih =>
    intro i
    have hs := h i
    cases h₁ : st₁.records[i]? with
    | none =>
      cases h₂ : st₂.records[i]? with
      | none => simp [proto_descendants, h₁, h₂]
      | some w₂ => simp [shape_at, h₁, h₂] at hs
    | some w₁ =>
      cases h₂ : st₂.records[i]? with
      | none => simp [shape_at, h₁, h₂] at hs
      | some w₂ =>
        simp only [shape_at, h₁, h₂, Option.map_some'] at hs
        have hpair : w₁.prototype_id = w₂.prototype_id ∧
            w₁.prototype_instances = w₂.prototype_instances := by
          simpa [wrapper_shape, Prod.ext_iff] using hs
        have hfun : (fun i' => i' :: proto_descendants st₁ fuel i') =
            (fun i' => i' :: proto_descendants st₂ fuel i') := by
          funext i'
          rw [ih]
        simp [proto_descendants, h₁, h₂, hpair.2, hfun]

open Catalog in
theorem commit_count_congr {R : Type} {st₁ st₂ : CatalogState R}
    (h : ∀ j, shape_at st₁ j = shape_at st₂ j) :
    ∀ fuel i, commit_count st₁ fuel i = commit_count st₂ fuel i := by
  intro fuel
  induction fuel with
  | zero => intro i; rfl
  | succ fuel ih =>
    intro i
    have hs := h i
    cases h₁ : st₁.records[i]? with
    | none =>
      cases h₂ : st₂.records[i]? with
      | none => simp [commit_count, h₁, h₂]
      | some w₂ => simp [shape_at, h₁, h₂] at hs
    | some w₁ =>
      cases h₂ : st₂.records[i]? with
      | none => simp [shape_at, h₁, h₂] at hs
      | some w₂ =>
        simp only [shape_at, h₁, h₂, Option.map_some'] at hs
        have hpair : w₁.prototype_id = w₂.prototype_id ∧
            w₁.prototype_instances = w₂.prototype_instances := by
          simpa [wrapper_shape, Prod.ext_iff] using hs
        have hfun : (fun i' => commit_count st₁ fuel i') =
            (fun i' => commit_count st₂ fuel i') := by
          funext i'
          rw [ih]
        simp [commit_count, h₁, h₂, hpair.2, hfun]

open Catalog in
theorem proto_descendants_gt {R : Type} {st : CatalogState R} (hWF : WFState st) :
    ∀ fuel i x, x ∈ proto_descendants st fuel i → i < x := by
  intro fuel
  induction fuel with
  | zero => intro i x hx; simp [proto_descendants] at hx
  | succ fuel ih =>
    intro i x hx
    cases h : st.records[i]? with
    | none => simp [proto_descendants, h] at hx
    | some w =>
      simp only [proto_descendants, h, List.mem_flatMap, List.mem_cons] at hx
      obtain ⟨i', hi', hcase⟩ := hx
      have hlt : i < i' := (hWF i w h i' hi').1
      cases hcase with
      | inl heq => omega
      | inr hmem => exact lt_trans hlt (ih i' x hmem)

open Catalog in
theorem commit_children_spec_of {R : Type} (pu : R → R → R → R) (fuel : Nat)
    (ih : CommitInternalSpec pu fuel) : ∀ l, CommitChildrenSpec pu fuel l := by
  intro l
  induction l with
  | nil =>
    intro old_inner new_inner st seq
    exact ⟨fun j => rfl, le_refl _, ⟨[], by simp, by simp, by simp, by simp⟩,
      fun j _ => rfl⟩
  | cons i rest ihl =>
    intro old_inner new_inner st seq
    rw [List.foldl_cons]
    cases hi : st.records[i]? with
    | none =>
      have hstep : commit_child pu (commit_internal pu fuel) old_inner new_inner (st, seq) i =
          (st, seq) := by
        simp [commit_child, hi]
      rw [hstep]
      obtain ⟨hsh, hseq, ⟨tail, hlog, hlen, hbnd, hpw⟩, hfr⟩ :=
        ihl old_inner new_inner st seq
      refine ⟨hsh, hseq, ⟨tail, hlog, ?_, hbnd, hpw⟩, ?_⟩
      · simp [hlen, commit_count_invalid hi]
      · intro j hj
        simp only [List.flatMap_cons, List.mem_append] at hj
        push_neg at hj
        exact hfr j hj.2
    | some iw =>
      have hrec : (⟨st.locks.set i true, st.change_log, st.records⟩ :
          CatalogState R).records[i]? = some iw := hi
      obtain ⟨hsh₁, hseq₁, ⟨tail₁, hlog₁, hlen₁, hbnd₁, hpw₁⟩, hfr₁⟩ :=
        ih i iw (pu iw.inner old_inner new_inner)
          ⟨st.locks.set i true, st.change_log, st.records⟩ seq hrec
      set r₁ := commit_internal pu fuel i iw (pu iw.inner old_inner new_inner)
        ⟨st.locks.set i true, st.change_log, st.records⟩ seq with hr₁
      have hstep : commit_child pu (commit_internal pu fuel) old_inner new_inner (st, seq) i =
          (⟨r₁.1.locks.set i false, r₁.1.change_log, r₁.1.records⟩, r₁.2) := by
        simp only [commit_child, hi]
      rw [hstep]
      have hsh₁' : ∀ j, shape_at (⟨r₁.1.locks.set i false, r₁.1.change_log, r₁.1.records⟩ :
          CatalogState R) j = shape_at st j := fun j => hsh₁ j
      obtain ⟨hsh₂, hseq₂, ⟨tail₂, hlog₂, hlen₂, hbnd₂, hpw₂⟩, hfr₂⟩ :=
        ihl old_inner new_inner ⟨r₁.1.locks.set i false, r₁.1.change_log, r₁.1.records⟩ r₁.2
      refine ⟨?_, ?_, ⟨tail₁ ++ tail₂, ?_, ?_, ?_, ?_⟩, ?_⟩
      · intro j
        rw [hsh₂ j]
        exact hsh₁' j
      · exact le_trans hseq₁ hseq₂
      · rw [hlog₂]
        show r₁.1.change_log ++ tail₂ = st.change_log ++ (tail₁ ++ tail₂)
        rw [hlog₁]
        simp [List.append_assoc]
      · have hcnt : ∀ i', commit_count
            (⟨r₁.1.locks.set i false, r₁.1.change_log, r₁.1.records⟩ : CatalogState R)
            fuel i' = commit_count st fuel i' :=
          fun i' => commit_count_congr hsh₁' fuel i'
        simp only [List.length_append, hlen₁, hlen₂, List.map_cons, List.sum_cons]
        have h1 : commit_count (⟨st.locks.set i true, st.change_log, st.records⟩ :
            CatalogState R) fuel i = commit_count st fuel i :=
          @commit_count_congr R ⟨st.locks.set i true, st.change_log, st.records⟩ st
            (fun j => rfl) fuel i
        rw [h1, List.map_congr_left fun i' _ => hcnt i']
      · intro e he
        rcases List.mem_append.mp he with h₁ | h₂
        · have := hbnd₁ e h₁
          constructor
          · exact this.1
          · exact lt_of_lt_of_le this.2 hseq₂
        · have := hbnd₂ e h₂
          constructor
          · exact le_trans hseq₁ this.1
          · exact this.2
      · rw [List.pairwise_append]
        refine ⟨hpw₁, hpw₂, ?_⟩
        intro e₁ h₁ e₂ h₂
        have b₁ := hbnd₁ e₁ h₁
        have b₂ := hbnd₂ e₂ h₂
        omega
      · intro j hj
        simp only [List.flatMap_cons, List.mem_append, List.mem_cons] at hj
        push_neg at hj
        obtain ⟨⟨hji, hjd⟩, hjr⟩ := hj
        have hdesc₁ : ∀ x, proto_descendants st fuel x =
            proto_descendants (⟨st.locks.set i true, st.change_log, st.records⟩ :
              CatalogState R) fuel x :=
          fun x => @proto_descendants_congr R st
            ⟨st.locks.set i true, st.change_log, st.records⟩ (fun j' => rfl) fuel x
        have hjr' : j ∉ rest.flatMap fun i' => i' ::
            proto_descendants (⟨r₁.1.locks.set i false, r₁.1.change_log, r₁.1.records⟩ :
              CatalogState R) fuel i' := by
          intro hmem
          apply hjr
          simp only [List.mem_flatMap, List.mem_cons] at hmem ⊢
          obtain ⟨i', hi', hcase⟩ := hmem
          refine ⟨i', hi', ?_⟩
          rwa [proto_descendants_congr hsh₁' fuel i'] at hcase
        rw [hfr₂ j hjr']
        show r₁.1.records[j]? = st.records[j]?
        exact hfr₁ j hji (by rw [← hdesc₁ i]; exact hjd)

open Catalog in
theorem commit_internal_spec {R : Type} (pu : R → R → R → R) :
    ∀ fuel, CommitInternalSpec pu fuel := by
  intro fuel
  induction fuel with
  | zero =>
    intro id oldW v st seq h
    exact ⟨fun j => rfl, le_refl _,
      ⟨[], by simp [commit_internal], by simp [commit_count], by simp, by simp⟩,
      fun j _ _ => rfl⟩
  | succ fuel ih =>
    have hch := commit_children_spec_of pu fuel ih
    intro id oldW v st seq h
    have hidlt : id < st.records.length := (List.getElem?_eq_some_iff.mp h).1
    set newW : RecordWrapper R := ⟨oldW.prototype_id, oldW.prototype_instances, v⟩ with hnewW
    set st1 : CatalogState R :=
      ⟨st.locks, st.change_log ++ [⟨id, seq, some oldW, newW⟩], st.records.set id newW⟩
      with hst1
    have hunfold : commit_internal pu (fuel + 1) id oldW v st seq =
        oldW.prototype_instances.foldl
          (commit_child pu (commit_internal pu fuel) oldW.inner v) (st1, seq + 1) := by
      simp only [commit_internal]
    have hsh1 : ∀ j, shape_at st1 j = shape_at st j := by
      intro j
      by_cases hj : j = id
      · subst hj
        show ((st.records.set j newW)[j]?).map wrapper_shape = _
        rw [List.getElem?_set_self']
        simp only [hidlt, if_pos, shape_at, h]
        rfl
      · show ((st.records.set id newW)[j]?).map wrapper_shape = _
        rw [List.getElem?_set_ne (Ne.symm hj)]
        rfl
    obtain ⟨hsh₂, hseq₂, ⟨tail₂, hlog₂, hlen₂, hbnd₂, hpw₂⟩, hfr₂⟩ :=
      hch oldW.prototype_instances oldW.inner v st1 (seq + 1)
    rw [hunfold]
    refine ⟨?_, ?_, ⟨⟨id, seq, some oldW, newW⟩ :: tail₂, ?_, ?_, ?_, ?_⟩, ?_⟩
    · intro j
      rw [hsh₂ j]
      exact hsh1 j
    · omega
    · rw [hlog₂]
      show st.change_log ++ [⟨id, seq, some oldW, newW⟩] ++ tail₂ = _
      simp [List.append_assoc]
    · have hcnt : ∀ i', commit_count st1 fuel i' = commit_count st fuel i' :=
        fun i' => commit_count_congr hsh1 fuel i'
      simp only [List.length_cons, hlen₂, commit_count, h]
      rw [Nat.add_comm]
      congr 1
      exact congrArg List.sum (List.map_congr_left fun i' _ => hcnt i')
    · intro e he
      rcases List.mem_cons.mp he with rfl | hmem
      · exact ⟨le_refl _, lt_of_lt_of_le (Nat.lt_succ_self seq) hseq₂⟩
      · have := hbnd₂ e hmem
        omega
    · rw [List.pairwise_cons]
      refine ⟨?_, hpw₂⟩
      intro e he
      have := hbnd₂ e he
      show seq < e.lsn
      omega
    · intro j hjid hjd
      have hjd' : j ∉ oldW.prototype_instances.flatMap fun i' => i' ::
          proto_descendants st1 fuel i' := by
        intro hmem
        apply hjd
        simp only [proto_descendants, h, List.mem_flatMap, List.mem_cons] at hmem ⊢
        obtain ⟨i', hi', hcase⟩ := hmem
        refine ⟨i', hi', ?_⟩
        rwa [proto_descendants_congr hsh1 fuel i'] at hcase
      rw [hfr₂ j hjd']
      show (st.records.set id newW)[j]? = st.records[j]?
      exact List.getElem?_set_ne (Ne.symm hjid)

/-- C7: a commit replaces the wrapper at the locked id with a wrapper
carrying the previous prototype_id and a clone of the previous
prototype_instances around the new inner record, and no slot other than
the locked id and the propagated prototype descendants is modified. -/
theorem commit_frame {R : Type} (pu : R → R → R → R) (st : CatalogState R)
    (seq id : Nat) (v : R) (oldW : RecordWrapper R)
    (hWF : Catalog.WFState st) (hid : st.records[id]? = some oldW) :
    (Catalog.commit pu id v st seq).1.records[id]? =
        some ⟨oldW.prototype_id, oldW.prototype_instances, v⟩ ∧
      ∀ j, j ≠ id →
        j ∉ Catalog.proto_descendants st (st.records.length + 1) id →
        (Catalog.commit pu id v st seq).1.records[j]? = st.records[j]? := by
  have hidlt : id < st.records.length := (List.getElem?_eq_some_iff.mp hid).1
  have hunfold : Catalog.commit pu id v st seq =
      Catalog.commit_internal pu (st.records.length + 1) id oldW v st seq := by
    simp [Catalog.commit, hid]
  obtain ⟨hsh, hseq, htail, hfr⟩ :=
    commit_internal_spec pu (st.records.length + 1) id oldW v st seq hid
  constructor
  · -- the slot at id: use the frame of the children pass directly
    set newW : RecordWrapper R := ⟨oldW.prototype_id, oldW.prototype_instances, v⟩ with hnewW
    set st1 : CatalogState R :=
      ⟨st.locks, st.change_log ++ [⟨id, seq, some oldW, newW⟩], st.records.set id newW⟩
      with hst1
    have hsh1 : ∀ j, Catalog.shape_at st1 j = Catalog.shape_at st j := by
      intro j
      by_cases hj : j = id
      · subst hj
        show ((st.records.set j newW)[j]?).map Catalog.wrapper_shape = _
        rw [List.getElem?_set_self']
        simp only [hidlt, if_pos, Catalog.shape_at, hid]
        rfl
      · show ((st.records.set id newW)[j]?).map Catalog.wrapper_shape = _
        rw [List.getElem?_set_ne (Ne.symm hj)]
        rfl
    have hunfold₂ : Catalog.commit pu id v st seq =
        oldW.prototype_instances.foldl
          (Catalog.commit_child pu (Catalog.commit_internal pu st.records.length)
            oldW.inner v) (st1, seq + 1) := by
      rw [hunfold]
      simp only [Catalog.commit_internal]
    obtain ⟨_, _, _, hfrc⟩ :=
      commit_children_spec_of pu st.records.length
        (commit_internal_spec pu st.records.length) oldW.prototype_instances
        oldW.inner v st1 (seq + 1)
    have hnotin : id ∉ oldW.prototype_instances.flatMap fun i =>
        i :: Catalog.proto_descendants st1 st.records.length i := by
      intro hmem
      simp only [List.mem_flatMap, List.mem_cons] at hmem
      obtain ⟨i, hi, hcase⟩ := hmem
      have hlt : id < i := (hWF id oldW hid i hi).1
      cases hcase with
      | inl heq => omega
      | inr hmem' =>
        rw [proto_descendants_congr hsh1 st.records.length i] at hmem'
        have := proto_descendants_gt hWF st.records.length i id hmem'
        omega
    rw [hunfold₂, hfrc id hnotin]
    show (st.records.set id newW)[id]? = some newW
    rw [List.getElem?_set_self']
    simp [hidlt]
  · intro j hjid hjd
    rw [hunfold]
    exact hfr j hjid hjd

/-- Bounded reformulation of WFState, decidable on concrete states. -/
theorem wfState_of_fin {R : Type} {st : CatalogState R}
    (h : ∀ j : Fin st.records.length, ∀ i ∈ (st.records.get j).prototype_instances,
      j.val < i ∧ i < st.records.length) : Catalog.WFState st := by
  intro j w hj i hi
  obtain ⟨hlt, hval⟩ := List.getElem?_eq_some_iff.mp hj
  exact h ⟨j, hlt⟩ i (by rw [show st.records.get ⟨j, hlt⟩ = w from hval]; exact hi)

/-- Witness for C7: the frame theorem applied to the concrete two-record
catalog frameSt, committing value 20 onto the prototype (id 0). -/
theorem commit_frame_witness :
    (Catalog.WFState frameSt ∧ frameSt.records[0]? = some ⟨none, [1], (10:Nat)⟩) ∧
    ((Catalog.commit proto_update_nat 0 20 frameSt 0).1.records[0]? =
        some ⟨none, [1], (20:Nat)⟩ ∧
      ∀ j, j ≠ 0 →
        j ∉ Catalog.proto_descendants frameSt (frameSt.records.length + 1) 0 →
        (Catalog.commit proto_update_nat 0 20 frameSt 0).1.records[j]? =
          frameSt.records[j]?) :=
  have hWF : Catalog.WFState frameSt := wfState_of_fin (by decide)
  ⟨⟨hWF, rfl⟩, commit_frame proto_update_nat frameSt 0 0 20 ⟨none, [1], 10⟩ hWF rfl⟩

theorem flatMap_set_perm {α β : Type} (f : α → List β) (l : List α) (c : Nat) (x y : α)
    (t : List β) (hc : l[c]? = some x) (hf : f y = f x ++ t) :
    List.Perm ((l.set c y).flatMap f) (l.flatMap f ++ t) := by
  obtain ⟨hlt, hval⟩ := List.getElem?_eq_some_iff.mp hc
  have hdecomp : l = l.take c ++ l[c] :: l.drop (c + 1) := by
    rw [List.cons_getElem_drop_succ, List.take_append_drop]
  have hset : l.set c y = l.take c ++ y :: l.drop (c + 1) := by
    rw [List.set_eq_take_append_cons_drop]
    simp [hlt]
  have h1 : (l.set c y).flatMap f =
      (l.take c).flatMap f ++ (f x ++ (t ++ (l.drop (c + 1)).flatMap f)) := by
    rw [hset]
    simp [List.flatMap_append, hf, List.append_assoc]
  have h2 : l.flatMap f ++ t =
      (l.take c).flatMap f ++ (f x ++ ((l.drop (c + 1)).flatMap f ++ t)) := by
    conv_lhs => rw [hdecomp]
    rw [hval]
    simp [List.flatMap_append, List.append_assoc]
  rw [h1, h2]
  exact List.Perm.append_left _ (List.Perm.append_left _ List.perm_append_comm)

theorem map_sum_set {α : Type} (g : α → Nat) (l : List α) (c : Nat) (x y : α)
    (hc : l[c]? = some x) :
    ((l.set c y).map g).sum + g x = (l.map g).sum + g y := by
  obtain ⟨hlt, hval⟩ := List.getElem?_eq_some_iff.mp hc
  have hdecomp : l = l.take c ++ l[c] :: l.drop (c + 1) := by
    rw [List.cons_getElem_drop_succ, List.take_append_drop]
  have hset : l.set c y = l.take c ++ y :: l.drop (c + 1) := by
    rw [List.set_eq_take_append_cons_drop]
    simp [hlt]
  have hdecomp2 : l = l.take c ++ x :: l.drop (c + 1) := by
    rw [← hval]
    exact hdecomp
  rw [hset]
  conv_rhs => rw [hdecomp2]
  simp [List.sum_append]
  omega

open Library in
theorem apply_op_cases {R : Type} (pu : R → R → R → R) (lib : Library R) (op : LibOp R) :
    (apply_op pu lib op = lib ∧ op_append_count lib op = 0) ∨
    ∃ c cat tail,
      lib.catalogs[c]? = some cat ∧
      (∃ cat', (apply_op pu lib op).catalogs = lib.catalogs.set c cat' ∧
        cat'.change_log = cat.change_log ++ tail) ∧
      tail.length = op_append_count lib op ∧
      lib.seq ≤ (apply_op pu lib op).seq ∧
      (∀ e ∈ tail, lib.seq ≤ e.lsn ∧ e.lsn < (apply_op pu lib op).seq) ∧
      List.Pairwise (fun e₁ e₂ => e₁.lsn < e₂.lsn) tail := by
  cases op with
  | create c r =>
    cases hcat : lib.catalogs[c]? with
    | none =>
      exact Or.inl ⟨by simp [apply_op, create_at, hcat], by simp [op_append_count, hcat]⟩
    | some cat =>
      right
      have happ : apply_op pu lib (.create c r) =
          ⟨lib.catalogs.set c
            ⟨cat.locks ++ [false],
             cat.change_log ++ [⟨cat.records.length, lib.seq, none, ⟨none, [], r⟩⟩],
             cat.records ++ [⟨none, [], r⟩]⟩, lib.seq + 1⟩ := by
        simp [apply_op, create_at, hcat, Catalog.create, Catalog.create_internal,
          Catalog.write_change_log]
      refine ⟨c, cat, [⟨cat.records.length, lib.seq, none, ⟨none, [], r⟩⟩], hcat,
        ⟨_, by rw [happ], rfl⟩, ?_, ?_, ?_, ?_⟩
      · simp [op_append_count, hcat]
      · rw [happ]
        exact Nat.le_succ _
      · intro e he
        rw [happ]
        rcases List.mem_singleton.mp he with rfl
        exact ⟨le_refl _, Nat.lt_succ_self _⟩
      · simp
  | create_from_prototype c pid =>
    cases hcat : lib.catalogs[c]? with
    | none =>
      exact Or.inl ⟨by simp [apply_op, create_from_prototype_at, hcat],
        by simp [op_append_count, hcat]⟩
    | some cat =>
      right
      cases hpid : cat.records[pid]? with
      | none =>
        have happ : apply_op pu lib (.create_from_prototype c pid) =
            ⟨lib.catalogs.set c cat, lib.seq⟩ := by
          simp [apply_op, create_from_prototype_at, hcat, Catalog.create_from_prototype, hpid]
        refine ⟨c, cat, [], hcat, ⟨cat, by rw [happ], by simp⟩, ?_, ?_, ?_, ?_⟩
        · simp [op_append_count, hcat, hpid]
        · rw [happ]
        · intro e he
          simp at he
        · simp
      | some protoW =>
        have happ : apply_op pu lib (.create_from_prototype c pid) =
            ⟨lib.catalogs.set c
              ⟨((cat.locks.set pid true) ++ [false]).set pid false,
               cat.change_log ++
                 [⟨cat.records.length, lib.seq, none, ⟨some pid, [], protoW.inner⟩⟩],
               (cat.records ++ [(⟨some pid, [], protoW.inner⟩ : RecordWrapper R)]).set pid
                 ({ protoW with prototype_instances :=
                     protoW.prototype_instances ++ [cat.records.length] })⟩,
              lib.seq + 1⟩ := by
          simp [apply_op, create_from_prototype_at, hcat, Catalog.create_from_prototype,
            hpid, Catalog.create_internal, Catalog.write_change_log]
        refine ⟨c, cat,
          [(⟨cat.records.length, lib.seq, none, ⟨some pid, [], protoW.inner⟩⟩ : ChangeRecord R)],
          hcat, ⟨_, by rw [happ], rfl⟩, ?_, ?_, ?_, ?_⟩
        · simp [op_append_count, hcat, hpid]
        · rw [happ]
          exact Nat.le_succ _
        · intro e he
          rw [happ]
          rcases List.mem_singleton.mp he with rfl
          exact ⟨le_refl _, Nat.lt_succ_self _⟩
        · simp
  | commit c id v =>
    cases hcat : lib.catalogs[c]? with
    | none =>
      exact Or.inl ⟨by simp [apply_op, lock_commit, hcat], by simp [op_append_count, hcat]⟩
    | some cat =>
      right
      cases hid : cat.records[id]? with
      | none =>
        have happ : apply_op pu lib (.commit c id v) =
            ⟨lib.catalogs.set c
              ⟨(cat.locks.set id true).set id false, cat.change_log, cat.records⟩,
              lib.seq⟩ := by
          simp [apply_op, lock_commit, hcat, Catalog.commit, hid, Catalog.unlock]
        refine ⟨c, cat, [], hcat, ⟨_, by rw [happ], by simp⟩, ?_, ?_, ?_, ?_⟩
        · simp [op_append_count, hcat, Catalog.commit_count, hid]
        · rw [happ]
        · intro e he
          simp at he
        · simp
      | some oldW =>
        obtain ⟨hsh, hseq, ⟨tail, hlog, hlen, hbnd, hpw⟩, hfr⟩ :=
          commit_internal_spec pu (cat.records.length + 1) id oldW v
            ⟨cat.locks.set id true, cat.change_log, cat.records⟩ lib.seq hid
        have happ : apply_op pu lib (.commit c id v) =
            ⟨lib.catalogs.set c
              ⟨(Catalog.commit_internal pu (cat.records.length + 1) id oldW v
                  ⟨cat.locks.set id true, cat.change_log, cat.records⟩ lib.seq).1.locks.set
                  id false,
               (Catalog.commit_internal pu (cat.records.length + 1) id oldW v
                  ⟨cat.locks.set id true, cat.change_log, cat.records⟩ lib.seq).1.change_log,
               (Catalog.commit_internal pu (cat.records.length + 1) id oldW v
                  ⟨cat.locks.set id true, cat.change_log, cat.records⟩ lib.seq).1.records⟩,
              (Catalog.commit_internal pu (cat.records.length + 1) id oldW v
                  ⟨cat.locks.set id true, cat.change_log, cat.records⟩ lib.seq).2⟩ := by
          simp [apply_op, lock_commit, hcat, Catalog.commit, hid, Catalog.unlock]
        refine ⟨c, cat, tail, hcat,
          ⟨⟨(Catalog.commit_internal pu (cat.records.length + 1) id oldW v
                ⟨cat.locks.set id true, cat.change_log, cat.records⟩ lib.seq).1.locks.set
                id false,
             (Catalog.commit_internal pu (cat.records.length + 1) id oldW v
                ⟨cat.locks.set id true, cat.change_log, cat.records⟩ lib.seq).1.change_log,
             (Catalog.commit_internal pu (cat.records.length + 1) id oldW v
                ⟨cat.locks.set id true, cat.change_log, cat.records⟩ lib.seq).1.records⟩,
            by rw [happ], hlog⟩, ?_, ?_, ?_, hpw⟩
        · rw [hlen]
          simp only [op_append_count, hcat]
          exact @commit_count_congr R ⟨cat.locks.set id true, cat.change_log, cat.records⟩
            cat (fun j => rfl) _ id
        · rw [happ]
          exact hseq
        · intro e he
          rw [happ]
          exact hbnd e he

open Library in
theorem all_lsns_init {R : Type} (n : Nat) : all_lsns (init R n) = [] := by
  induction n with
  | zero => rfl
  | succ n ih =>
    have hcons : (init R (n + 1)).catalogs = CatalogState.empty R :: (init R n).catalogs := by
      simp [init, List.replicate_succ]
    simpa [all_lsns, hcons, CatalogState.empty] using ih

open Library in
theorem cat_lsns_init {R : Type} (n c : Nat) : cat_lsns (init R n) c = [] := by
  simp only [cat_lsns, init, List.getElem?_replicate]
  split <;> simp [CatalogState.empty]

open Library in
theorem LibInv_init {R : Type} (n : Nat) : LibInv (init R n) := by
  refine ⟨?_, ?_, ?_⟩
  · intro x hx
    rw [all_lsns_init] at hx
    simp at hx
  · rw [all_lsns_init]
    simp
  · intro c
    rw [cat_lsns_init]
    simp

open Library in
theorem LibInv_apply_op {R : Type} (pu : R → R → R → R) (lib : Library R) (op : LibOp R)
    (h : LibInv lib) : LibInv (apply_op pu lib op) := by
  obtain ⟨hbound, hne, hinc⟩ := h
  rcases apply_op_cases pu lib op with ⟨heq, _⟩ |
    ⟨c, cat, tail, hcat, ⟨cat', hset, hlog⟩, hlen, hseq, hbnd, hpw⟩
  · rw [heq]
    exact ⟨hbound, hne, hinc⟩
  · have hfcat : cat'.change_log.map (fun e => e.lsn) =
        cat.change_log.map (fun e => e.lsn) ++ tail.map (fun e => e.lsn) := by
      rw [hlog]
      simp
    have hperm : List.Perm (all_lsns (apply_op pu lib op))
        (all_lsns lib ++ tail.map (fun e => e.lsn)) := by
      have hall : all_lsns (apply_op pu lib op) =
          (lib.catalogs.set c cat').flatMap fun cat => cat.change_log.map (fun e => e.lsn) := by
        rw [all_lsns, hset]
      rw [hall]
      exact flatMap_set_perm _ _ c cat cat' _ hcat hfcat
    refine ⟨?_, ?_, ?_⟩
    · intro x hx
      have hx' := hperm.mem_iff.mp hx
      rcases List.mem_append.mp hx' with hold | hnew
      · exact lt_of_lt_of_le (hbound x hold) hseq
      · obtain ⟨e, he, rfl⟩ := List.mem_map.mp hnew
        exact (hbnd e he).2
    · have hrhs : List.Pairwise (· ≠ ·) (all_lsns lib ++ tail.map (fun e => e.lsn)) := by
        rw [List.pairwise_append]
        refine ⟨hne, ?_, ?_⟩
        · exact List.pairwise_map.mpr (hpw.imp fun hlt => Nat.ne_of_lt hlt)
        · intro a ha b hb
          obtain ⟨e, he, rfl⟩ := List.mem_map.mp hb
          have h1 := hbound a ha
          have h2 := (hbnd e he).1
          omega
      exact hrhs.perm hperm.symm (fun hab => hab.symm)
    · intro c'
      by_cases hc' : c' = c
      · subst hc'
        have hlt : c' < lib.catalogs.length := (List.getElem?_eq_some_iff.mp hcat).1
        have hcl : cat_lsns (apply_op pu lib op) c' = cat.change_log.map (fun e => e.lsn) ++
            tail.map (fun e => e.lsn) := by
          rw [cat_lsns, hset, List.getElem?_set_self']
          simp [hlt, hfcat]
        rw [hcl, List.pairwise_append]
        refine ⟨?_, ?_, ?_⟩
        · have := hinc c'
          rwa [cat_lsns, hcat] at this
        · exact List.pairwise_map.mpr hpw
        · intro a ha b hb
          obtain ⟨e, he, rfl⟩ := List.mem_map.mp hb
          have hamem : a ∈ all_lsns lib := by
            rw [all_lsns]
            exact List.mem_flatMap.mpr ⟨cat, List.getElem?_mem hcat, ha⟩
          have h1 := hbound a hamem
          have h2 := (hbnd e he).1
          omega
      · have hcl : cat_lsns (apply_op pu lib op) c' = cat_lsns lib c' := by
          rw [cat_lsns, hset, List.getElem?_set_ne (fun heq => hc' heq.symm), cat_lsns]
        rw [hcl]
        exact hinc c'

/-- C2: from any fresh Library, after any single-threaded sequence of
creates, create_from_prototypes, and commits: the LSNs of all appended
ChangeRecords are pairwise distinct across the whole Library and strictly
increasing in append order within each catalog change log; and each
further operation appends exactly op_append_count records in total — one
per create, one per create_from_prototype, and one per update performed
by a commit (the committed record plus each propagated child update). -/
theorem library_lsn_discipline {R : Type} (pu : R → R → R → R) (n : Nat)
    (ops : List (LibOp R)) :
    List.Pairwise (· ≠ ·) (Library.all_lsns (Library.run_ops pu n ops)) ∧
    (∀ c, List.Pairwise (· < ·) (Library.cat_lsns (Library.run_ops pu n ops) c)) ∧
    ∀ op, Library.total_log_len (Library.apply_op pu (Library.run_ops pu n ops) op) =
      Library.total_log_len (Library.run_ops pu n ops) +
        Library.op_append_count (Library.run_ops pu n ops) op := by
  have hinv : Library.LibInv (Library.run_ops pu n ops) := by
    rw [Library.run_ops]
    have hstep : ∀ (l : List (LibOp R)) (lib : Library R), Library.LibInv lib →
        Library.LibInv (l.foldl (Library.apply_op pu) lib) := by
      intro l
      induction l with
      | nil => exact fun lib h => h
      | cons op rest ih =>
        intro lib h
        exact ih _ (LibInv_apply_op pu lib op h)
    exact hstep ops _ (LibInv_init n)
  refine ⟨hinv.2.1, hinv.2.2, ?_⟩
  intro op
  rcases apply_op_cases pu (Library.run_ops pu n ops) op with ⟨heq, hcnt⟩ |
    ⟨c, cat, tail, hcat, ⟨cat', hset, hlog⟩, hlen, _, _, _⟩
  · rw [heq, hcnt]
    simp
  · have hsum : (((Library.run_ops pu n ops).catalogs.set c cat').map
        fun cat => cat.change_log.length).sum + cat.change_log.length =
        ((Library.run_ops pu n ops).catalogs.map fun cat => cat.change_log.length).sum +
          cat'.change_log.length :=
      map_sum_set (fun cat => cat.change_log.length) (Library.run_ops pu n ops).catalogs
        c cat cat' hcat
    have hlen' : cat'.change_log.length = cat.change_log.length + tail.length := by
      rw [hlog]
      simp
    have htot : Library.total_log_len (Library.apply_op pu (Library.run_ops pu n ops) op) =
        (((Library.run_ops pu n ops).catalogs.set c cat').map
          fun cat => cat.change_log.length).sum := by
      rw [Library.total_log_len, hset]
    rw [htot]
    simp only [Library.total_log_len]
    omega

open UndoRedo in
theorem consume_change_log_current {R : Type} {lib : Library R} {w : Watcher}
    (h : watcher_current lib w) : consume_change_log lib w = ([], w) := by
  unfold watcher_current at h
  obtain ⟨i, m⟩ := w
  cases hcat : lib.catalogs[i]? with
  | none => simp [consume_change_log, hcat]
  | some cat =>
    rw [hcat] at h
    simp only at h
    subst h
    simp [consume_change_log, hcat, Catalog.changes, Catalog.watermark, List.take_length,
      List.drop_length]

open UndoRedo in
theorem consume_watchers_current {R : Type} {lib : Library R} {ws : List Watcher}
    (h : ∀ w ∈ ws, watcher_current lib w) : consume_watchers lib ws = ([], ws, false) := by
  induction ws with
  | nil => rfl
  | cons w ws ih =>
    have hw := consume_change_log_current (h w (List.mem_cons_self w ws))
    have hrest := ih fun w' hw' => h w' (List.mem_cons_of_mem w hw')
    simp [consume_watchers, hw, hrest]

open UndoRedo in
theorem undoables_for_consumption_current {R : Type} {e : UndoRedo R}
    (h : watchers_current e) : undoables_for_consumption e = ([], e) := by
  have hres := consume_watchers_current h
  simp [undoables_for_consumption, hres, sort_by_lsn]

open UndoRedo in
theorem consume_change_logs_current {R : Type} {e : UndoRedo R}
    (h : watchers_current e) : consume_change_logs e = e := by
  have hres := undoables_for_consumption_current h
  simp [consume_change_logs, hres]

open UndoRedo in
theorem advance_watermark_current {R : Type} (lib : Library R) (w : Watcher) :
    watcher_current lib (advance_watermark lib w) := by
  unfold watcher_current advance_watermark
  cases hcat : lib.catalogs[w.catalog_idx]? with
  | none => simp [hcat]
  | some cat => simp [hcat, Catalog.watermark]

open UndoRedo in
theorem advance_watermark_current_id {R : Type} {lib : Library R} {w : Watcher}
    (h : watcher_current lib w) : advance_watermark lib w = w := by
  unfold watcher_current at h
  obtain ⟨i, m⟩ := w
  cases hcat : lib.catalogs[i]? with
  | none => simp [advance_watermark, hcat]
  | some cat =>
    rw [hcat] at h
    simp only at h
    subst h
    simp [advance_watermark, hcat, Catalog.watermark]

open UndoRedo in
theorem advance_watermarks_current_id {R : Type} {e : UndoRedo R}
    (h : watchers_current e) : advance_watermarks e = e := by
  unfold advance_watermarks
  rw [List.map_congr_left fun w hw => advance_watermark_current_id (h w hw), List.map_id']

open UndoRedo in
theorem consume_watchers_cleared_false {R : Type} {lib : Library R} {ws : List Watcher}
    (h : (consume_watchers lib ws).2.2 = false) : (consume_watchers lib ws).1 = [] := by
  induction ws with
  | nil => rfl
  | cons w ws ih =>
    simp only [consume_watchers, Bool.or_eq_false_iff, Bool.not_eq_false'] at h ⊢
    obtain ⟨h1, h2⟩ := h
    rw [List.isEmpty_iff] at h1
    simp [h1, ih h2]

theorem insert_by_lsn_length {R : Type} (u : UndoRecord R) (l : List (UndoRecord R)) :
    (insert_by_lsn u l).length = l.length + 1 := by
  induction l with
  | nil => rfl
  | cons v rest ih =>
    simp only [insert_by_lsn]
    split <;> simp [ih]

theorem sort_by_lsn_length {R : Type} (l : List (UndoRecord R)) :
    (sort_by_lsn l).length = l.length := by
  induction l with
  | nil => rfl
  | cons u rest ih => simp [sort_by_lsn, insert_by_lsn_length, ih]

/-- C5: whenever reconciliation collects at least one new change from any
watcher, the redo stack of the reconciled engine is empty; consequently a
redo() issued while new edits are pending replays nothing: it leaves the
library untouched and ends with an empty redo stack. -/
theorem reconcile_clears_redo {R : Type} (pu : R → R → R → R) (e : UndoRedo R)
    (h : (UndoRedo.undoables_for_consumption e).1 ≠ []) :
    (UndoRedo.undoables_for_consumption e).2.redo_stack = [] ∧
    (UndoRedo.redo pu e).library = e.library ∧
    (UndoRedo.redo pu e).redo_stack = [] := by
  have hcl : (UndoRedo.consume_watchers e.library e.watchers).2.2 = true := by
    by_contra hfalse
    have hf : (UndoRedo.consume_watchers e.library e.watchers).2.2 = false :=
      Bool.eq_false_iff.mpr hfalse
    apply h
    have hnil := consume_watchers_cleared_false hf
    simp [UndoRedo.undoables_for_consumption, hnil, sort_by_lsn]
  have hredo : (UndoRedo.undoables_for_consumption e).2.redo_stack = [] := by
    simp [UndoRedo.undoables_for_consumption, hcl]
  have hccredo : (UndoRedo.consume_change_logs e).redo_stack = [] := by
    simp [UndoRedo.consume_change_logs, hredo]
  have hredoeq : UndoRedo.redo pu e = UndoRedo.consume_change_logs e := by
    rw [UndoRedo.redo]
    simp [hccredo]
  refine ⟨hredo, ?_, ?_⟩
  · rw [hredoeq]
    rfl
  · rw [hredoeq]
    exact hccredo

/-- Concrete engine for the C5 witness: engine8 with a stale redo entry. -/
theorem reconcile_clears_redo_witness :
    ((UndoRedo.undoables_for_consumption
        (⟨engine8.library, [], [Undoable.single ⟨0, 0, some 0, 1, 1⟩],
          engine8.watchers⟩ : UndoRedo Nat)).1 ≠ []) ∧
    ((UndoRedo.undoables_for_consumption
        (⟨engine8.library, [], [Undoable.single ⟨0, 0, some 0, 1, 1⟩],
          engine8.watchers⟩ : UndoRedo Nat)).2.redo_stack = [] ∧
      (UndoRedo.redo proto_update_nat
        (⟨engine8.library, [], [Undoable.single ⟨0, 0, some 0, 1, 1⟩],
          engine8.watchers⟩ : UndoRedo Nat)).library =
        (⟨engine8.library, [], [Undoable.single ⟨0, 0, some 0, 1, 1⟩],
          engine8.watchers⟩ : UndoRedo Nat).library ∧
      (UndoRedo.redo proto_update_nat
        (⟨engine8.library, [], [Undoable.single ⟨0, 0, some 0, 1, 1⟩],
          engine8.watchers⟩ : UndoRedo Nat)).redo_stack = []) :=
  ⟨by decide,
   reconcile_clears_redo proto_update_nat
     ⟨engine8.library, [], [Undoable.single ⟨0, 0, some 0, 1, 1⟩], engine8.watchers⟩
     (by decide)⟩

/-- Counterexample to C8 as stated: engine8 has an empty undo stack, yet
undo() is not a no-op on it, because reconciliation first harvests the
pending change and then replays it (the record reverts from 1 to 0 and
both stacks change). -/
theorem undo_empty_stack_not_noop :
    engine8.undo_stack = [] ∧
    (UndoRedo.undo proto_update_nat engine8).library.catalogs ≠
      engine8.library.catalogs := by
  exact ⟨rfl, by decide⟩

/-- C8 amended: for an engine whose watchers are up to date (no pending
changes to reconcile), undo() with an empty undo stack is a no-op, and
symmetrically redo() with an empty redo stack is a no-op. -/
theorem undo_redo_empty_stack_noop {R : Type} (pu : R → R → R → R) (e : UndoRedo R)
    (hw : watchers_current e) :
    (e.undo_stack = [] → UndoRedo.undo pu e = e) ∧
    (e.redo_stack = [] → UndoRedo.redo pu e = e) := by
  have hcc := consume_change_logs_current hw
  constructor
  · intro hu
    rw [UndoRedo.undo]
    simp [hcc, hu]
  · intro hr
    rw [UndoRedo.redo]
    simp [hcc, hr]

/-- Witness for the amended C8: engine8 after its watcher has caught up,
with both stacks empty. -/
theorem undo_redo_empty_stack_noop_witness :
    (watchers_current (⟨engine8.library, [], [], [⟨0, 2⟩]⟩ : UndoRedo Nat) ∧
      (⟨engine8.library, [], [], [⟨0, 2⟩]⟩ : UndoRedo Nat).undo_stack = [] ∧
      (⟨engine8.library, [], [], [⟨0, 2⟩]⟩ : UndoRedo Nat).redo_stack = []) ∧
    (UndoRedo.undo proto_update_nat (⟨engine8.library, [], [], [⟨0, 2⟩]⟩ : UndoRedo Nat) =
        ⟨engine8.library, [], [], [⟨0, 2⟩]⟩ ∧
      UndoRedo.redo proto_update_nat (⟨engine8.library, [], [], [⟨0, 2⟩]⟩ : UndoRedo Nat) =
        ⟨engine8.library, [], [], [⟨0, 2⟩]⟩) :=
  ⟨⟨by decide, rfl, rfl⟩,
   ⟨(undo_redo_empty_stack_noop proto_update_nat ⟨engine8.library, [], [], [⟨0, 2⟩]⟩
       (by decide)).1 rfl,
    (undo_redo_empty_stack_noop proto_update_nat ⟨engine8.library, [], [], [⟨0, 2⟩]⟩
       (by decide)).2 rfl⟩⟩

open Library in
theorem lock_commit_simple {R : Type} (pu : R → R → R → R) (lib : Library R)
    (c id : Nat) (v : R) (cat : CatalogState R) (w : RecordWrapper R)
    (hc : lib.catalogs[c]? = some cat) (hw : cat.records[id]? = some w)
    (hinst : w.prototype_instances = []) :
    lock_commit pu c id v lib =
      ⟨lib.catalogs.set c
        ⟨(cat.locks.set id true).set id false,
         cat.change_log ++ [⟨id, lib.seq, some w, ⟨w.prototype_id, [], v⟩⟩],
         cat.records.set id ⟨w.prototype_id, [], v⟩⟩,
       lib.seq + 1⟩ := by
  simp only [lock_commit, hc]
  simp only [Catalog.commit, hw]
  simp only [Catalog.commit_internal, hinst, List.foldl_nil]
  simp [Catalog.unlock]

/-- C9: undoing an UndoRecord that records a creation (old_record = none)
replays nothing — the library, all records and all change logs included,
is untouched — yet the popped undoable still moves onto the redo stack,
and a subsequent redo() re-commits the created value onto the
still-existing record, appending one change record. -/
theorem undo_of_creation_noop_redo_recommits {R : Type} (pu : R → R → R → R)
    (e : UndoRedo R) (u : UndoRecord R) (us : List (Undoable R))
    (cat : CatalogState R) (w : RecordWrapper R)
    (hw : watchers_current e)
    (hstack : e.undo_stack = us ++ [Undoable.single u])
    (hold : u.old_record = none)
    (hcat : e.library.catalogs[u.catalog_idx]? = some cat)
    (hrec : cat.records[u.record_id]? = some w)
    (hinst : w.prototype_instances = []) :
    UndoRedo.undo pu e =
      { e with undo_stack := us, redo_stack := e.redo_stack ++ [Undoable.single u] } ∧
    ∃ cat', (UndoRedo.redo pu (UndoRedo.undo pu e)).library.catalogs[u.catalog_idx]? =
        some cat' ∧
      Catalog.get u.record_id cat' = some u.new_record ∧
      cat'.change_log.length = cat.change_log.length + 1 := by
  have hcc := consume_change_logs_current hw
  have hreplay : UndoRedo.undoable_undo pu (Undoable.single u) e.library = e.library := by
    simp [UndoRedo.undoable_undo, UndoRedo.undo_record_undo, hold]
  have hundo : UndoRedo.undo pu e =
      { e with undo_stack := us, redo_stack := e.redo_stack ++ [Undoable.single u] } := by
    rw [UndoRedo.undo]
    simp only [hcc, hstack, List.getLast?_concat, List.dropLast_concat]
    rw [hreplay]
    exact advance_watermarks_current_id fun w' hw' => hw w' hw'
  refine ⟨hundo, ?_⟩
  have hclt : u.catalog_idx < e.library.catalogs.length := (List.getElem?_eq_some_iff.mp hcat).1
  have hrlt : u.record_id < cat.records.length := (List.getElem?_eq_some_iff.mp hrec).1
  have hcur2 : watchers_current
      ({ e with undo_stack := us, redo_stack := e.redo_stack ++ [Undoable.single u] } :
        UndoRedo R) := fun w' hw' => hw w' hw'
  have hcc2 := consume_change_logs_current hcur2
  have hlc := lock_commit_simple pu e.library u.catalog_idx u.record_id u.new_record
    cat w hcat hrec hinst
  rw [hundo, UndoRedo.redo]
  simp only [hcc2, List.getLast?_concat, List.dropLast_concat]
  simp only [UndoRedo.advance_watermarks, UndoRedo.undoable_redo, UndoRedo.undo_record_redo]
  rw [hlc]
  refine ⟨⟨(cat.locks.set u.record_id true).set u.record_id false,
    cat.change_log ++ [⟨u.record_id, e.library.seq, some w, ⟨w.prototype_id, [], u.new_record⟩⟩],
    cat.records.set u.record_id ⟨w.prototype_id, [], u.new_record⟩⟩, ?_, ?_, ?_⟩
  · show (e.library.catalogs.set u.catalog_idx _)[u.catalog_idx]? = _
    rw [List.getElem?_set_self']
    simp [hclt]
  · rw [Catalog.get]
    show ((cat.records.set u.record_id _)[u.record_id]?).map _ = _
    rw [List.getElem?_set_self']
    simp [hrlt]
  · simp

/-- Witness for C9: the creation-undo theorem applied to engine9. -/
theorem undo_of_creation_noop_redo_recommits_witness :
    (watchers_current engine9 ∧
      engine9.undo_stack = [] ++ [Undoable.single (⟨0, 0, none, 0, 0⟩ : UndoRecord Nat)] ∧
      (⟨0, 0, none, 0, 0⟩ : UndoRecord Nat).old_record = none ∧
      engine9.library.catalogs[(0:Nat)]? = some cat8 ∧
      cat8.records[(0:Nat)]? = some ⟨none, [], 1⟩ ∧
      (⟨none, [], (1:Nat)⟩ : RecordWrapper Nat).prototype_instances = []) ∧
    (UndoRedo.undo proto_update_nat engine9 =
        { engine9 with undo_stack := [],
                       redo_stack := [] ++ [Undoable.single ⟨0, 0, none, 0, 0⟩] } ∧
      ∃ cat', (UndoRedo.redo proto_update_nat
            (UndoRedo.undo proto_update_nat engine9)).library.catalogs[(0:Nat)]? =
          some cat' ∧
        Catalog.get 0 cat' = some 0 ∧
        cat'.change_log.length = cat8.change_log.length + 1) :=
  ⟨⟨by decide, rfl, rfl, rfl, rfl, rfl⟩,
   undo_of_creation_noop_redo_recommits proto_update_nat engine9 ⟨0, 0, none, 0, 0⟩ []
     cat8 ⟨none, [], 1⟩ (by decide) rfl rfl rfl rfl rfl⟩

open UndoRedo in
theorem watchers_current_release {R : Type} (e : UndoRedo R) :
    watchers_current (advance_watermarks e) := by
  intro w' hw'
  simp only [advance_watermarks, List.mem_map] at hw'
  obtain ⟨w, _, rfl⟩ := hw'
  exact advance_watermark_current e.library w

/-- C4: edits committed inside a pause_scope are discarded on release:
the undo and redo stacks are exactly what they were right after scope
entry (in particular redo is not cleared), nothing is ever harvested
after release, and a subsequent undo() pops the most recent pre-scope
edit and reverts it, committing its old value back. -/
theorem pause_scope_discards {R : Type} (pu : R → R → R → R) (e : UndoRedo R)
    (edits : List (Nat × Nat × R)) (u : UndoRecord R) (us : List (Undoable R))
    (oldv : R) (cat₃ : CatalogState R) (w₃ : RecordWrapper R)
    (hstack : (UndoRedo.pause_scope_enter e).undo_stack = us ++ [Undoable.single u])
    (hold : u.old_record = some oldv)
    (hcat : (UndoRedo.pause_scope_release
        { UndoRedo.pause_scope_enter e with
          library := UndoRedo.apply_edits pu edits
            (UndoRedo.pause_scope_enter e).library }).library.catalogs[u.catalog_idx]? =
      some cat₃)
    (hrec : cat₃.records[u.record_id]? = some w₃)
    (hinst : w₃.prototype_instances = []) :
    (UndoRedo.pause_scope_release
        { UndoRedo.pause_scope_enter e with
          library := UndoRedo.apply_edits pu edits
            (UndoRedo.pause_scope_enter e).library }).undo_stack =
        (UndoRedo.pause_scope_enter e).undo_stack ∧
    (UndoRedo.pause_scope_release
        { UndoRedo.pause_scope_enter e with
          library := UndoRedo.apply_edits pu edits
            (UndoRedo.pause_scope_enter e).library }).redo_stack =
        (UndoRedo.pause_scope_enter e).redo_stack ∧
    UndoRedo.undoables_for_consumption
        (UndoRedo.pause_scope_release
          { UndoRedo.pause_scope_enter e with
            library := UndoRedo.apply_edits pu edits
              (UndoRedo.pause_scope_enter e).library }) =
      ([], UndoRedo.pause_scope_release
        { UndoRedo.pause_scope_enter e with
          library := UndoRedo.apply_edits pu edits
            (UndoRedo.pause_scope_enter e).library }) ∧
    (UndoRedo.undo pu
        (UndoRedo.pause_scope_release
          { UndoRedo.pause_scope_enter e with
            library := UndoRedo.apply_edits pu edits
              (UndoRedo.pause_scope_enter e).library })).undo_stack = us ∧
    (UndoRedo.undo pu
        (UndoRedo.pause_scope_release
          { UndoRedo.pause_scope_enter e with
            library := UndoRedo.apply_edits pu edits
              (UndoRedo.pause_scope_enter e).library })).redo_stack =
        (UndoRedo.pause_scope_enter e).redo_stack ++ [Undoable.single u] ∧
    ∃ cat', (UndoRedo.undo pu
        (UndoRedo.pause_scope_release
          { UndoRedo.pause_scope_enter e with
            library := UndoRedo.apply_edits pu edits
              (UndoRedo.pause_scope_enter e).library })).library.catalogs[u.catalog_idx]? =
        some cat' ∧
      Catalog.get u.record_id cat' = some oldv ∧
      (∀ j, j ≠ u.record_id → cat'.records[j]? = cat₃.records[j]?) ∧
      ∀ c, c ≠ u.catalog_idx →
        (UndoRedo.undo pu
          (UndoRedo.pause_scope_release
            { UndoRedo.pause_scope_enter e with
              library := UndoRedo.apply_edits pu edits
                (UndoRedo.pause_scope_enter e).library })).library.catalogs[c]? =
        (UndoRedo.pause_scope_release
          { UndoRedo.pause_scope_enter e with
            library := UndoRedo.apply_edits pu edits
              (UndoRedo.pause_scope_enter e).library }).library.catalogs[c]? := by
  set e₁ := UndoRedo.pause_scope_enter e with he₁
  set e₂ : UndoRedo R := { e₁ with library := UndoRedo.apply_edits pu edits e₁.library }
    with he₂
  set e₃ := UndoRedo.pause_scope_release e₂ with he₃
  have hcur₃ : watchers_current e₃ := watchers_current_release e₂
  have hstacks₃ : e₃.undo_stack = e₁.undo_stack ∧ e₃.redo_stack = e₁.redo_stack := ⟨rfl, rfl⟩
  have hufc := undoables_for_consumption_current hcur₃
  have hcc₃ := consume_change_logs_current hcur₃
  have hlib₃ : e₃.library = e₂.library := rfl
  refine ⟨hstacks₃.1, hstacks₃.2, hufc, ?_⟩
  have hlc := lock_commit_simple pu e₃.library u.catalog_idx u.record_id oldv
    cat₃ w₃ hcat hrec hinst
  have hclt : u.catalog_idx < e₃.library.catalogs.length :=
    (List.getElem?_eq_some_iff.mp hcat).1
  have hrlt : u.record_id < cat₃.records.length := (List.getElem?_eq_some_iff.mp hrec).1
  have hundo : UndoRedo.undo pu e₃ =
      UndoRedo.advance_watermarks
        { e₃ with undo_stack := us,
                  library := Library.lock_commit pu u.catalog_idx u.record_id oldv e₃.library,
                  redo_stack := e₃.redo_stack ++ [Undoable.single u] } := by
    rw [UndoRedo.undo]
    simp only [hcc₃, hstacks₃.1, hstack, List.getLast?_concat, List.dropLast_concat]
    simp only [UndoRedo.undoable_undo, UndoRedo.undo_record_undo, hold]
  rw [hundo]
  refine ⟨rfl, ?_, ?_⟩
  · show e₃.redo_stack ++ [Undoable.single u] = e₁.redo_stack ++ [Undoable.single u]
    rw [hstacks₃.2]
  refine ⟨⟨(cat₃.locks.set u.record_id true).set u.record_id false,
    cat₃.change_log ++ [⟨u.record_id, e₃.library.seq, some w₃, ⟨w₃.prototype_id, [], oldv⟩⟩],
    cat₃.records.set u.record_id ⟨w₃.prototype_id, [], oldv⟩⟩, ?_, ?_, ?_, ?_⟩
  · show (Library.lock_commit pu u.catalog_idx u.record_id oldv
        e₃.library).catalogs[u.catalog_idx]? = _
    rw [hlc]
    show (e₃.library.catalogs.set u.catalog_idx _)[u.catalog_idx]? = _
    rw [List.getElem?_set_self']
    simp [hclt]
  · rw [Catalog.get]
    show ((cat₃.records.set u.record_id _)[u.record_id]?).map _ = _
    rw [List.getElem?_set_self']
    simp [hrlt]
  · intro j hj
    show (cat₃.records.set u.record_id _)[j]? = cat₃.records[j]?
    exact List.getElem?_set_ne (fun heq => hj heq.symm)
  · intro c hc
    show (Library.lock_commit pu u.catalog_idx u.record_id oldv
        e₃.library).catalogs[c]? = e₃.library.catalogs[c]?
    rw [hlc]
    exact List.getElem?_set_ne (fun heq => hc heq.symm)

/-- Witness for C4: the pause-scope theorem applied to engine4 with one
in-scope edit committing 5 onto record 0. -/
theorem pause_scope_discards_witness :
    ((UndoRedo.pause_scope_enter engine4).undo_stack =
        [] ++ [Undoable.single (⟨0, 0, some 0, 1, 1⟩ : UndoRecord Nat)] ∧
      (⟨0, 0, some 0, 1, 1⟩ : UndoRecord Nat).old_record = some 0 ∧
      scope4.library.catalogs[(0:Nat)]? = some cat4post ∧
      cat4post.records[(0:Nat)]? = some ⟨none, [], 5⟩ ∧
      (⟨none, [], (5:Nat)⟩ : RecordWrapper Nat).prototype_instances = []) ∧
    (scope4.undo_stack = (UndoRedo.pause_scope_enter engine4).undo_stack ∧
      scope4.redo_stack = (UndoRedo.pause_scope_enter engine4).redo_stack ∧
      UndoRedo.undoables_for_consumption scope4 = ([], scope4) ∧
      (UndoRedo.undo proto_update_nat scope4).undo_stack = [] ∧
      (UndoRedo.undo proto_update_nat scope4).redo_stack =
        (UndoRedo.pause_scope_enter engine4).redo_stack ++
          [Undoable.single ⟨0, 0, some 0, 1, 1⟩] ∧
      ∃ cat', (UndoRedo.undo proto_update_nat scope4).library.catalogs[(0:Nat)]? =
          some cat' ∧
        Catalog.get 0 cat' = some 0 ∧
        (∀ j, j ≠ 0 → cat'.records[j]? = cat4post.records[j]?) ∧
        ∀ c, c ≠ 0 → (UndoRedo.undo proto_update_nat scope4).library.catalogs[c]? =
          scope4.library.catalogs[c]?) :=
  ⟨⟨by decide, rfl, by decide, by decide, rfl⟩,
   pause_scope_discards proto_update_nat engine4 [(0, 0, 5)] ⟨0, 0, some 0, 1, 1⟩ []
     0 cat4post ⟨none, [], 5⟩ (by decide) rfl (by decide) (by decide) rfl⟩

theorem set_getElem?_self_eq {α : Type} {l : List α} {i : Nat} {x : α}
    (h : l[i]? = some x) : l.set i x = l := by
  apply List.ext_getElem?
  intro n
  by_cases hn : n = i
  · subst hn
    rw [List.getElem?_set_self']
    have hlt : n < l.length := (List.getElem?_eq_some_iff.mp h).1
    simp [hlt, h]
  · exact List.getElem?_set_ne (fun heq => hn heq.symm)

open UndoRedo in
theorem scope_trace_apply {R : Type} (pu : R → R → R → R) :
    ∀ (edits : List (Nat × Nat × R)) (lib : Library R),
      (scope_trace pu edits lib).2 = apply_edits pu edits lib := by
  intro edits
  induction edits with
  | nil => intro lib; rfl
  | cons ed rest ih =>
    intro lib
    have hstep : (scope_trace pu (ed :: rest) lib).2 =
        (scope_trace pu rest (Library.lock_commit pu ed.1 ed.2.1 ed.2.2 lib)).2 := by
      rw [scope_trace]
      split
      · rfl
      · split
        · rfl
        · rfl
    rw [hstep, ih]
    rfl

open Library in
theorem lock_commit_catalogs_length {R : Type} (pu : R → R → R → R) (c id : Nat) (v : R)
    (lib : Library R) :
    (lock_commit pu c id v lib).catalogs.length = lib.catalogs.length := by
  rw [lock_commit]
  cases hcat : lib.catalogs[c]? with
  | none => rfl
  | some cat => simp

open Library in
theorem lock_commit_none_iff {R : Type} (pu : R → R → R → R) (c id : Nat) (v : R)
    (lib : Library R) (c' : Nat) :
    (lock_commit pu c id v lib).catalogs[c']? = none ↔ lib.catalogs[c']? = none := by
  rw [List.getElem?_eq_none_iff, List.getElem?_eq_none_iff, lock_commit_catalogs_length]

open Library in
theorem lock_commit_shape {R : Type} (pu : R → R → R → R) (c id : Nat) (v : R)
    (lib : Library R) (c' j : Nat) :
    lib_shape_at (lock_commit pu c id v lib) c' j = lib_shape_at lib c' j := by
  cases hcat : lib.catalogs[c]? with
  | none =>
    have h : lock_commit pu c id v lib = lib := by
      simp [lock_commit, hcat]
    rw [h]
  | some cat =>
    have h : lock_commit pu c id v lib =
        ⟨lib.catalogs.set c (Catalog.unlock id (Catalog.commit pu id v
            ⟨cat.locks.set id true, cat.change_log, cat.records⟩ lib.seq).1),
         (Catalog.commit pu id v ⟨cat.locks.set id true, cat.change_log, cat.records⟩
            lib.seq).2⟩ := by
      simp [lock_commit, hcat]
    rw [h]
    by_cases hc' : c' = c
    · subst hc'
      have hlt : c' < lib.catalogs.length := (List.getElem?_eq_some_iff.mp hcat).1
      have hshape : ∀ j', Catalog.shape_at
          (Catalog.unlock id (Catalog.commit pu id v
            ⟨cat.locks.set id true, cat.change_log, cat.records⟩ lib.seq).1) j' =
          Catalog.shape_at cat j' := by
        intro j'
        cases hid : cat.records[id]? with
        | none =>
          rw [Catalog.commit]
          simp only [hid]
          rfl
        | some oldW =>
          obtain ⟨hsh, _, _, _⟩ :=
            commit_internal_spec pu (cat.records.length + 1) id oldW v
              ⟨cat.locks.set id true, cat.change_log, cat.records⟩ lib.seq hid
          rw [Catalog.commit]
          simp only [hid]
          exact hsh j'
      rw [lib_shape_at]
      show ((lib.catalogs.set c' _)[c']?).map _ = _
      rw [List.getElem?_set_self hlt, lib_shape_at, hcat]
      simp only [Option.map_some']
      exact congrArg some (hshape j)
    · rw [lib_shape_at]
      show ((lib.catalogs.set c _)[c']?).map _ = _
      rw [List.getElem?_set_ne (fun heq => hc' heq.symm)]
      rfl

open UndoRedo in
theorem scope_trace_shape {R : Type} (pu : R → R → R → R) :
    ∀ (edits : List (Nat × Nat × R)) (lib : Library R) (c' j : Nat),
      lib_shape_at (scope_trace pu edits lib).2 c' j = lib_shape_at lib c' j := by
  intro edits
  induction edits with
  | nil => intro lib c' j; rfl
  | cons ed rest ih =>
    intro lib c' j
    have hstep : (scope_trace pu (ed :: rest) lib).2 =
        (scope_trace pu rest (Library.lock_commit pu ed.1 ed.2.1 ed.2.2 lib)).2 := by
      rw [scope_trace]
      split
      · rfl
      · split
        · rfl
        · rfl
    rw [hstep, ih, lock_commit_shape]

open UndoRedo in
theorem scope_trace_simple {R : Type} (pu : R → R → R → R)
    (edits : List (Nat × Nat × R)) (lib : Library R) (c id : Nat)
    (h : simple_target lib c id) : simple_target (scope_trace pu edits lib).2 c id := by
  obtain ⟨p, hp⟩ := h
  exact ⟨p, by rw [scope_trace_shape, hp]⟩

open Library in
theorem lock_commit_simple_target {R : Type} (pu : R → R → R → R) (c₀ id₀ : Nat) (v : R)
    (lib : Library R) (c id : Nat)
    (h : simple_target lib c id) : simple_target (lock_commit pu c₀ id₀ v lib) c id := by
  obtain ⟨p, hp⟩ := h
  exact ⟨p, by rw [lock_commit_shape, hp]⟩

open Library in
theorem lock_commit_records_at {R : Type} (pu : R → R → R → R) (c id : Nat) (v : R)
    (lib : Library R) (rs : List (RecordWrapper R)) (w : RecordWrapper R)
    (hc : records_at lib c = some rs) (hw : rs[id]? = some w)
    (hinst : w.prototype_instances = []) :
    records_at (lock_commit pu c id v lib) c =
        some (rs.set id ⟨w.prototype_id, [], v⟩) ∧
      ∀ c', c' ≠ c → records_at (lock_commit pu c id v lib) c' = records_at lib c' := by
  rw [records_at] at hc
  cases hcat : lib.catalogs[c]? with
  | none => rw [hcat] at hc; simp at hc
  | some cat =>
    rw [hcat, Option.map_some'] at hc
    have hrs : cat.records = rs := by injection hc
    subst hrs
    have hlc := lock_commit_simple pu lib c id v cat w hcat hw hinst
    have hlt : c < lib.catalogs.length := (List.getElem?_eq_some_iff.mp hcat).1
    constructor
    · rw [hlc, records_at]
      show ((lib.catalogs.set c _)[c]?).map _ = _
      rw [List.getElem?_set_self']
      simp [hlt]
    · intro c' hc'
      rw [hlc, records_at, records_at]
      show ((lib.catalogs.set c _)[c']?).map _ = _
      rw [List.getElem?_set_ne (fun heq => hc' heq.symm)]

theorem simple_target_elim {R : Type} {lib : Library R} {c id : Nat}
    (h : simple_target lib c id) :
    ∃ cat w, lib.catalogs[c]? = some cat ∧ cat.records[id]? = some w ∧
      w.prototype_instances = [] := by
  obtain ⟨p, hp⟩ := h
  rw [lib_shape_at] at hp
  cases hcat : lib.catalogs[c]? with
  | none => rw [hcat] at hp; simp at hp
  | some cat =>
    rw [hcat, Option.map_some'] at hp
    have hs : Catalog.shape_at cat id = some (p, []) := by injection hp
    rw [Catalog.shape_at] at hs
    cases hrec : cat.records[id]? with
    | none => rw [hrec] at hs; simp at hs
    | some w =>
      rw [hrec, Option.map_some'] at hs
      have hw : Catalog.wrapper_shape w = (p, []) := by injection hs
      rw [Catalog.wrapper_shape] at hw
      refine ⟨cat, w, rfl, hrec, ?_⟩
      simpa using congrArg Prod.snd hw

theorem simple_target_intro {R : Type} {lib : Library R} {c id : Nat}
    {cat : CatalogState R} {w : RecordWrapper R}
    (hcat : lib.catalogs[c]? = some cat) (hrec : cat.records[id]? = some w)
    (hinst : w.prototype_instances = []) : simple_target lib c id :=
  ⟨w.prototype_id, by
    rw [lib_shape_at, hcat, Option.map_some']
    rw [Catalog.shape_at, hrec, Option.map_some', Catalog.wrapper_shape, hinst]⟩

open UndoRedo in
theorem scope_trace_cons_valid {R : Type} (pu : R → R → R → R) (ed : Nat × Nat × R)
    (rest : List (Nat × Nat × R)) (lib : Library R)
    (cat : CatalogState R) (w : RecordWrapper R)
    (hcat : lib.catalogs[ed.1]? = some cat) (hrec : cat.records[ed.2.1]? = some w) :
    scope_trace pu (ed :: rest) lib =
      ((⟨ed.1, ed.2.1, some w.inner, ed.2.2, lib.seq⟩ : UndoRecord R) ::
        (scope_trace pu rest (Library.lock_commit pu ed.1 ed.2.1 ed.2.2 lib)).1,
       (scope_trace pu rest (Library.lock_commit pu ed.1 ed.2.1 ed.2.2 lib)).2) := by
  rw [scope_trace]
  simp [hcat, hrec]

open UndoRedo in
theorem scope_undo_restores {R : Type} (pu : R → R → R → R) :
    ∀ (edits : List (Nat × Nat × R)) (lib lib₂ : Library R),
      (∀ ed ∈ edits, simple_target lib ed.1 ed.2.1) →
      (∀ c, records_at lib₂ c = records_at (scope_trace pu edits lib).2 c) →
      ∀ c, records_at ((scope_trace pu edits lib).1.reverse.foldl
          (fun acc u => undo_record_undo pu u acc) lib₂) c = records_at lib c := by
  intro edits
  induction edits with
  | nil =>
    intro lib lib₂ _ h₂ c
    exact h₂ c
  | cons ed rest ih =>
    intro lib lib₂ hsimple h₂ c
    obtain ⟨cat, w, hcat, hrec, hinst⟩ :=
      simple_target_elim (hsimple ed (List.mem_cons_self ed rest))
    have hidlt : ed.2.1 < cat.records.length := (List.getElem?_eq_some_iff.mp hrec).1
    have htr := scope_trace_cons_valid pu ed rest lib cat w hcat hrec
    have hrc : records_at lib ed.1 = some cat.records := by
      rw [records_at, hcat]
      rfl
    obtain ⟨hset, hframe⟩ := lock_commit_records_at pu ed.1 ed.2.1 ed.2.2 lib
      cat.records w hrc hrec hinst
    have hIH := ih (Library.lock_commit pu ed.1 ed.2.1 ed.2.2 lib) lib₂
      (fun ed' hed' => lock_commit_simple_target pu ed.1 ed.2.1 ed.2.2 lib ed'.1 ed'.2.1
        (hsimple ed' (List.mem_cons_of_mem ed hed')))
      (fun c' => by rw [h₂ c', htr])
    rw [htr]
    show records_at ((((⟨ed.1, ed.2.1, some w.inner, ed.2.2, lib.seq⟩ : UndoRecord R) ::
      (scope_trace pu rest (Library.lock_commit pu ed.1 ed.2.1 ed.2.2 lib)).1).reverse).foldl
        (fun acc u => undo_record_undo pu u acc) lib₂) c = records_at lib c
    rw [List.reverse_cons, List.foldl_append, List.foldl_cons, List.foldl_nil]
    have hstep : undo_record_undo pu
        (⟨ed.1, ed.2.1, some w.inner, ed.2.2, lib.seq⟩ : UndoRecord R)
        ((scope_trace pu rest (Library.lock_commit pu ed.1 ed.2.1 ed.2.2 lib)).1.reverse.foldl
          (fun acc u => undo_record_undo pu u acc) lib₂) =
        Library.lock_commit pu ed.1 ed.2.1 w.inner
          ((scope_trace pu rest (Library.lock_commit pu ed.1 ed.2.1 ed.2.2 lib)).1.reverse.foldl
            (fun acc u => undo_record_undo pu u acc) lib₂) := by
      rw [undo_record_undo]
    rw [hstep]
    have hcM : records_at
        ((scope_trace pu rest (Library.lock_commit pu ed.1 ed.2.1 ed.2.2 lib)).1.reverse.foldl
          (fun acc u => undo_record_undo pu u acc) lib₂) ed.1 =
        some (cat.records.set ed.2.1 ⟨w.prototype_id, [], ed.2.2⟩) := by
      rw [hIH ed.1, hset]
    obtain ⟨hset₂, hframe₂⟩ := lock_commit_records_at pu ed.1 ed.2.1 w.inner _
      (cat.records.set ed.2.1 ⟨w.prototype_id, [], ed.2.2⟩) ⟨w.prototype_id, [], ed.2.2⟩
      hcM (by simp [hidlt]) rfl
    by_cases hc : c = ed.1
    · subst hc
      rw [hset₂, List.set_set]
      have hweq : (⟨w.prototype_id, [], w.inner⟩ : RecordWrapper R) = w := by
        conv_rhs => rw [show w = ⟨w.prototype_id, w.prototype_instances, w.inner⟩ from rfl]
        rw [hinst]
      show some (cat.records.set ed.2.1 (⟨w.prototype_id, [], w.inner⟩ : RecordWrapper R)) =
        records_at lib ed.1
      rw [hweq, set_getElem?_self_eq hrec, hrc]
    · rw [hframe₂ c hc, hIH c, hframe c hc]

open UndoRedo in
theorem scope_redo_reapplies {R : Type} (pu : R → R → R → R) :
    ∀ (edits : List (Nat × Nat × R)) (lib lib₂ : Library R),
      (∀ ed ∈ edits, simple_target lib ed.1 ed.2.1) →
      (∀ c, records_at lib₂ c = records_at lib c) →
      ∀ c, records_at ((scope_trace pu edits lib).1.foldl
          (fun acc u => undo_record_redo pu u acc) lib₂) c =
        records_at (scope_trace pu edits lib).2 c := by
  intro edits
  induction edits with
  | nil =>
    intro lib lib₂ _ h₂ c
    exact h₂ c
  | cons ed rest ih =>
    intro lib lib₂ hsimple h₂ c
    obtain ⟨cat, w, hcat, hrec, hinst⟩ :=
      simple_target_elim (hsimple ed (List.mem_cons_self ed rest))
    have htr := scope_trace_cons_valid pu ed rest lib cat w hcat hrec
    have hrc : records_at lib ed.1 = some cat.records := by
      rw [records_at, hcat]
      rfl
    obtain ⟨hset, hframe⟩ := lock_commit_records_at pu ed.1 ed.2.1 ed.2.2 lib
      cat.records w hrc hrec hinst
    obtain ⟨hset₂, hframe₂⟩ := lock_commit_records_at pu ed.1 ed.2.1 ed.2.2 lib₂
      cat.records w (by rw [h₂ ed.1, hrc]) hrec hinst
    rw [htr]
    show records_at (((⟨ed.1, ed.2.1, some w.inner, ed.2.2, lib.seq⟩ : UndoRecord R) ::
      (scope_trace pu rest (Library.lock_commit pu ed.1 ed.2.1 ed.2.2 lib)).1).foldl
        (fun acc u => undo_record_redo pu u acc) lib₂) c =
      records_at (scope_trace pu rest (Library.lock_commit pu ed.1 ed.2.1 ed.2.2 lib)).2 c
    rw [List.foldl_cons]
    have hstep : undo_record_redo pu
        (⟨ed.1, ed.2.1, some w.inner, ed.2.2, lib.seq⟩ : UndoRecord R) lib₂ =
        Library.lock_commit pu ed.1 ed.2.1 ed.2.2 lib₂ := rfl
    rw [hstep]
    exact ih (Library.lock_commit pu ed.1 ed.2.1 ed.2.2 lib)
      (Library.lock_commit pu ed.1 ed.2.1 ed.2.2 lib₂)
      (fun ed' hed' => lock_commit_simple_target pu ed.1 ed.2.1 ed.2.2 lib ed'.1 ed'.2.1
        (hsimple ed' (List.mem_cons_of_mem ed hed')))
      (fun c' => by
        by_cases hc' : c' = ed.1
        · subst hc'
          rw [hset₂, hset]
        · rw [hframe₂ c' hc', h₂ c', ← hframe c' hc']) c

theorem insert_by_lsn_perm {R : Type} (u : UndoRecord R) (l : List (UndoRecord R)) :
    List.Perm (insert_by_lsn u l) (u :: l) := by
  induction l with
  | nil => exact List.Perm.refl _
  | cons v rest ih =>
    rw [insert_by_lsn]
    split
    · exact List.Perm.refl _
    · exact (ih.cons v).trans (List.Perm.swap u v rest)

theorem sort_by_lsn_perm {R : Type} (l : List (UndoRecord R)) :
    List.Perm (sort_by_lsn l) l := by
  induction l with
  | nil => exact List.Perm.refl _
  | cons u rest ih =>
    rw [sort_by_lsn]
    exact (insert_by_lsn_perm u (sort_by_lsn rest)).trans (ih.cons u)

theorem insert_by_lsn_sorted {R : Type} (u : UndoRecord R) (l : List (UndoRecord R))
    (h : List.Pairwise (fun a b => a.lsn ≤ b.lsn) l) :
    List.Pairwise (fun a b => a.lsn ≤ b.lsn) (insert_by_lsn u l) := by
  induction l with
  | nil => simp [insert_by_lsn]
  | cons v rest ih =>
    obtain ⟨hv, hrest⟩ := List.pairwise_cons.mp h
    rw [insert_by_lsn]
    split
    · rename_i hle
      refine List.pairwise_cons.mpr ⟨?_, h⟩
      intro x hx
      rcases List.mem_cons.mp hx with rfl | hx'
      · exact hle
      · exact le_trans hle (hv x hx')
    · rename_i hgt
      refine List.pairwise_cons.mpr ⟨?_, ih hrest⟩
      intro x hx
      rcases List.mem_cons.mp ((insert_by_lsn_perm u rest).mem_iff.mp hx) with rfl | hx'
      · omega
      · exact hv x hx'

theorem sort_by_lsn_sorted {R : Type} (l : List (UndoRecord R)) :
    List.Pairwise (fun a b => a.lsn ≤ b.lsn) (sort_by_lsn l) := by
  induction l with
  | nil => simp [sort_by_lsn]
  | cons u rest ih =>
    rw [sort_by_lsn]
    exact insert_by_lsn_sorted u (sort_by_lsn rest) ih

theorem eq_of_perm_sorted_lt {R : Type} :
    ∀ (l₁ l₂ : List (UndoRecord R)), List.Perm l₁ l₂ →
      List.Pairwise (fun a b => a.lsn < b.lsn) l₁ →
      List.Pairwise (fun a b => a.lsn < b.lsn) l₂ → l₁ = l₂ := by
  intro l₁
  induction l₁ with
  | nil =>
    intro l₂ hp _ _
    cases l₂ with
    | nil => rfl
    | cons b t => have := hp.length_eq; simp at this
  | cons a t₁ ih =>
    intro l₂ hp h₁ h₂
    cases l₂ with
    | nil => have := hp.length_eq; simp at this
    | cons b t₂ =>
      by_cases hab : a = b
      · subst hab
        rw [ih t₂ hp.cons_inv (List.pairwise_cons.mp h₁).2 (List.pairwise_cons.mp h₂).2]
      · exfalso
        have hmem_a : a ∈ b :: t₂ := hp.mem_iff.mp (List.mem_cons_self a t₁)
        have ha_t₂ : a ∈ t₂ := by
          rcases List.mem_cons.mp hmem_a with heq | hmem
          · exact absurd heq hab
          · exact hmem
        have hmem_b : b ∈ a :: t₁ := hp.symm.mem_iff.mp (List.mem_cons_self b t₂)
        have hb_t₁ : b ∈ t₁ := by
          rcases List.mem_cons.mp hmem_b with heq | hmem
          · exact absurd heq.symm hab
          · exact hmem
        have hlt1 := (List.pairwise_cons.mp h₁).1 b hb_t₁
        have hlt2 := (List.pairwise_cons.mp h₂).1 a ha_t₂
        omega

theorem flatMap_congr_mem {α β : Type} {l : List α} {f g : α → List β}
    (h : ∀ a ∈ l, f a = g a) : l.flatMap f = l.flatMap g := by
  induction l with
  | nil => rfl
  | cons a t ih =>
    simp only [List.flatMap_cons]
    rw [h a (List.mem_cons_self a t), ih fun a' ha' => h a' (List.mem_cons_of_mem a ha')]

theorem flatMap_filter_key_perm {α : Type} (key : α → Nat) :
    ∀ (l : List α) (idxs : List Nat), idxs.Nodup → (∀ x ∈ l, key x ∈ idxs) →
      List.Perm (idxs.flatMap fun c => l.filter fun x => key x == c) l := by
  intro l
  induction l with
  | nil =>
    intro idxs _ _
    have hz : (idxs.flatMap fun c => ([] : List α).filter fun x => key x == c) = [] := by
      simp
    rw [hz]
  | cons x xs ih =>
    intro idxs hnd hcov
    have hkx : key x ∈ idxs := hcov x (List.mem_cons_self x xs)
    obtain ⟨s, t, rfl⟩ := List.append_of_mem hkx
    obtain ⟨hnds, hndc, hdisj⟩ := List.nodup_append.mp hnd
    have hks : key x ∉ s := fun hmem => hdisj hmem (List.mem_cons_self _ _)
    have hkt : key x ∉ t := (List.nodup_cons.mp hndc).1
    have hassemble : ((s ++ key x :: t).flatMap fun c => (x :: xs).filter fun y => key y == c) =
        (s.flatMap fun c => xs.filter fun y => key y == c) ++
          x :: ((xs.filter fun y => key y == key x) ++
            (t.flatMap fun c => xs.filter fun y => key y == c)) := by
      rw [List.flatMap_append, List.flatMap_cons]
      have hfs : ∀ c ∈ s, ((x :: xs).filter fun y => key y == c) =
          xs.filter fun y => key y == c := by
        intro c hc
        have hne : (key x == c) = false := by
          simp only [beq_eq_false_iff_ne]
          intro heq
          exact hks (heq ▸ hc)
        simp [List.filter_cons, hne]
      have hft : ∀ c ∈ t, ((x :: xs).filter fun y => key y == c) =
          xs.filter fun y => key y == c := by
        intro c hc
        have hne : (key x == c) = false := by
          simp only [beq_eq_false_iff_ne]
          intro heq
          exact hkt (heq ▸ hc)
        simp [List.filter_cons, hne]
      rw [flatMap_congr_mem hfs, flatMap_congr_mem hft]
      have hmid : ((x :: xs).filter fun y => key y == key x) =
          x :: (xs.filter fun y => key y == key x) := by
        simp [List.filter_cons]
      rw [hmid]
      simp [List.append_assoc]
    rw [hassemble]
    refine (List.perm_middle).trans ?_
    refine List.Perm.cons x ?_
    have hreassemble : (s.flatMap fun c => xs.filter fun y => key y == c) ++
        ((xs.filter fun y => key y == key x) ++
          (t.flatMap fun c => xs.filter fun y => key y == c)) =
        ((s ++ key x :: t).flatMap fun c => xs.filter fun y => key y == c) := by
      rw [List.flatMap_append, List.flatMap_cons]
    rw [hreassemble]
    exact ih (s ++ key x :: t) hnd fun y hy => hcov y (List.mem_cons_of_mem x hy)

open UndoRedo in
theorem apply_edits_catalogs_length {R : Type} (pu : R → R → R → R) :
    ∀ (edits : List (Nat × Nat × R)) (lib : Library R),
      (apply_edits pu edits lib).catalogs.length = lib.catalogs.length := by
  intro edits
  induction edits with
  | nil => intro lib; rfl
  | cons ed rest ih =>
    intro lib
    show (apply_edits pu rest (Library.lock_commit pu ed.1 ed.2.1 ed.2.2 lib)).catalogs.length = _
    rw [ih, lock_commit_catalogs_length]

open UndoRedo in
theorem scope_trace_mem_idx {R : Type} (pu : R → R → R → R) :
    ∀ (edits : List (Nat × Nat × R)) (lib : Library R) (u : UndoRecord R),
      u ∈ (scope_trace pu edits lib).1 → u.catalog_idx ∈ edits.map (·.1) := by
  intro edits
  induction edits with
  | nil =>
    intro lib u hu
    simp [scope_trace] at hu
  | cons ed rest ih =>
    intro lib u hu
    cases hcat : lib.catalogs[ed.1]? with
    | none =>
      have htr : (scope_trace pu (ed :: rest) lib).1 =
          (scope_trace pu rest (Library.lock_commit pu ed.1 ed.2.1 ed.2.2 lib)).1 := by
        rw [scope_trace]
        simp [hcat]
      rw [htr] at hu
      exact List.mem_cons_of_mem _ (ih _ u hu)
    | some cat =>
      cases hrec : cat.records[ed.2.1]? with
      | none =>
        have htr : (scope_trace pu (ed :: rest) lib).1 =
            (scope_trace pu rest (Library.lock_commit pu ed.1 ed.2.1 ed.2.2 lib)).1 := by
          rw [scope_trace]
          simp [hcat, hrec]
        rw [htr] at hu
        exact List.mem_cons_of_mem _ (ih _ u hu)
      | some wr =>
        have htr := scope_trace_cons_valid pu ed rest lib cat wr hcat hrec
        rw [htr] at hu
        rcases List.mem_cons.mp hu with rfl | hu'
        · simp
        · exact List.mem_cons_of_mem _ (ih _ u hu')

open UndoRedo in
theorem scope_trace_valid_idx {R : Type} (pu : R → R → R → R) :
    ∀ (edits : List (Nat × Nat × R)) (lib : Library R) (u : UndoRecord R),
      u ∈ (scope_trace pu edits lib).1 → lib.catalogs[u.catalog_idx]? ≠ none := by
  intro edits
  induction edits with
  | nil =>
    intro lib u hu
    simp [scope_trace] at hu
  | cons ed rest ih =>
    intro lib u hu
    cases hcat : lib.catalogs[ed.1]? with
    | none =>
      have htr : (scope_trace pu (ed :: rest) lib).1 =
          (scope_trace pu rest (Library.lock_commit pu ed.1 ed.2.1 ed.2.2 lib)).1 := by
        rw [scope_trace]
        simp [hcat]
      rw [htr] at hu
      intro hnone
      exact ih _ u hu ((lock_commit_none_iff pu ed.1 ed.2.1 ed.2.2 lib u.catalog_idx).mpr hnone)
    | some cat =>
      cases hrec : cat.records[ed.2.1]? with
      | none =>
        have htr : (scope_trace pu (ed :: rest) lib).1 =
            (scope_trace pu rest (Library.lock_commit pu ed.1 ed.2.1 ed.2.2 lib)).1 := by
          rw [scope_trace]
          simp [hcat, hrec]
        rw [htr] at hu
        intro hnone
        exact ih _ u hu ((lock_commit_none_iff pu ed.1 ed.2.1 ed.2.2 lib u.catalog_idx).mpr hnone)
      | some wr =>
        have htr := scope_trace_cons_valid pu ed rest lib cat wr hcat hrec
        rw [htr] at hu
        rcases List.mem_cons.mp hu with rfl | hu'
        · intro hnone
          have hn : lib.catalogs[ed.1]? = none := hnone
          rw [hcat] at hn
          exact Option.noConfusion hn
        · intro hnone
          exact ih _ u hu'
            ((lock_commit_none_iff pu ed.1 ed.2.1 ed.2.2 lib u.catalog_idx).mpr hnone)

open UndoRedo in
theorem scope_trace_lsns {R : Type} (pu : R → R → R → R) :
    ∀ (edits : List (Nat × Nat × R)) (lib : Library R),
      (∀ ed ∈ edits, simple_target lib ed.1 ed.2.1) →
      List.Pairwise (fun a b => a.lsn < b.lsn) (scope_trace pu edits lib).1 ∧
      ∀ u ∈ (scope_trace pu edits lib).1, lib.seq ≤ u.lsn := by
  intro edits
  induction edits with
  | nil =>
    intro lib _
    constructor
    · simp [scope_trace]
    · intro u hu
      simp [scope_trace] at hu
  | cons ed rest ih =>
    intro lib hsimple
    obtain ⟨cat, w, hcat, hrec, hinst⟩ :=
      simple_target_elim (hsimple ed (List.mem_cons_self ed rest))
    have htr := scope_trace_cons_valid pu ed rest lib cat w hcat hrec
    have hlc := lock_commit_simple pu lib ed.1 ed.2.1 ed.2.2 cat w hcat hrec hinst
    have hseq : (Library.lock_commit pu ed.1 ed.2.1 ed.2.2 lib).seq = lib.seq + 1 := by
      rw [hlc]
    obtain ⟨hpw, hmem⟩ := ih (Library.lock_commit pu ed.1 ed.2.1 ed.2.2 lib)
      (fun ed' hed' => lock_commit_simple_target pu ed.1 ed.2.1 ed.2.2 lib ed'.1 ed'.2.1
        (hsimple ed' (List.mem_cons_of_mem ed hed')))
    rw [hseq] at hmem
    constructor
    · rw [htr]
      refine List.pairwise_cons.mpr ⟨?_, hpw⟩
      intro u' hu'
      have h := hmem u' hu'
      show lib.seq < u'.lsn
      omega
    · rw [htr]
      intro u hu
      rcases List.mem_cons.mp hu with rfl | hu'
      · exact Nat.le_refl _
      · have h := hmem u hu'
        show lib.seq ≤ u.lsn
        omega

open UndoRedo in
theorem scope_trace_logs {R : Type} (pu : R → R → R → R) :
    ∀ (edits : List (Nat × Nat × R)) (lib : Library R),
      (∀ ed ∈ edits, simple_target lib ed.1 ed.2.1) →
      ∀ (c : Nat) (cat : CatalogState R), lib.catalogs[c]? = some cat →
        ∃ cat₂ tail, (scope_trace pu edits lib).2.catalogs[c]? = some cat₂ ∧
          cat₂.change_log = cat.change_log ++ tail ∧
          tail.map (undo_of_change c) =
            (scope_trace pu edits lib).1.filter fun u => u.catalog_idx == c := by
  intro edits
  induction edits with
  | nil =>
    intro lib _ c cat hcat
    exact ⟨cat, [], hcat, by simp, by simp [scope_trace]⟩
  | cons ed rest ih =>
    intro lib hsimple c cat hcat
    obtain ⟨cated, w, hced, hrec, hinst⟩ :=
      simple_target_elim (hsimple ed (List.mem_cons_self ed rest))
    have htr := scope_trace_cons_valid pu ed rest lib cated w hced hrec
    have hlc := lock_commit_simple pu lib ed.1 ed.2.1 ed.2.2 cated w hced hrec hinst
    have hsimple' : ∀ ed' ∈ rest,
        simple_target (Library.lock_commit pu ed.1 ed.2.1 ed.2.2 lib) ed'.1 ed'.2.1 :=
      fun ed' hed' => lock_commit_simple_target pu ed.1 ed.2.1 ed.2.2 lib ed'.1 ed'.2.1
        (hsimple ed' (List.mem_cons_of_mem ed hed'))
    by_cases hc : c = ed.1
    · subst hc
      have hcc : cated = cat := by
        have h := hcat
        rw [hced] at h
        exact Option.some.inj h
      subst hcc
      have hlt : ed.1 < lib.catalogs.length := (List.getElem?_eq_some_iff.mp hced).1
      have hlib' : (Library.lock_commit pu ed.1 ed.2.1 ed.2.2 lib).catalogs[ed.1]? =
          some ⟨(cated.locks.set ed.2.1 true).set ed.2.1 false,
            cated.change_log ++ [⟨ed.2.1, lib.seq, some w, ⟨w.prototype_id, [], ed.2.2⟩⟩],
            cated.records.set ed.2.1 ⟨w.prototype_id, [], ed.2.2⟩⟩ := by
        rw [hlc]
        exact List.getElem?_set_self hlt
      obtain ⟨cat₂, tail, hc₂, hlog, hmap⟩ := ih _ hsimple' ed.1 _ hlib'
      refine ⟨cat₂, ⟨ed.2.1, lib.seq, some w, ⟨w.prototype_id, [], ed.2.2⟩⟩ :: tail, ?_, ?_, ?_⟩
      · rw [htr]
        exact hc₂
      · rw [hlog]
        simp
      · rw [htr]
        rw [List.map_cons, hmap]
        have hhead : undo_of_change ed.1
            (⟨ed.2.1, lib.seq, some w, ⟨w.prototype_id, [], ed.2.2⟩⟩ : ChangeRecord R) =
            (⟨ed.1, ed.2.1, some w.inner, ed.2.2, lib.seq⟩ : UndoRecord R) := rfl
        rw [hhead, List.filter_cons]
        simp
    · have hlib' : (Library.lock_commit pu ed.1 ed.2.1 ed.2.2 lib).catalogs[c]? = some cat := by
        rw [hlc]
        show (lib.catalogs.set ed.1 _)[c]? = some cat
        rw [List.getElem?_set_ne (fun heq => hc heq.symm)]
        exact hcat
      obtain ⟨cat₂, tail, hc₂, hlog, hmap⟩ := ih _ hsimple' c cat hlib'
      refine ⟨cat₂, tail, ?_, hlog, ?_⟩
      · rw [htr]
        exact hc₂
      · rw [htr, hmap, List.filter_cons]
        have hbeq : ((⟨ed.1, ed.2.1, some w.inner, ed.2.2, lib.seq⟩ :
            UndoRecord R).catalog_idx == c) = false := by
          simp only [beq_eq_false_iff_ne]
          exact fun heq => hc heq.symm
        simp [hbeq]

open UndoRedo in
theorem consume_change_log_after_scope {R : Type} (pu : R → R → R → R)
    (edits : List (Nat × Nat × R)) (lib : Library R) (w : Watcher)
    (hsimple : ∀ ed ∈ edits, simple_target lib ed.1 ed.2.1)
    (hcur : watcher_current lib w) :
    consume_change_log (scope_trace pu edits lib).2 w =
      ((scope_trace pu edits lib).1.filter fun u => u.catalog_idx == w.catalog_idx,
       advance_watermark (scope_trace pu edits lib).2 w) := by
  cases hcat : lib.catalogs[w.catalog_idx]? with
  | none =>
    have hlen : (scope_trace pu edits lib).2.catalogs.length = lib.catalogs.length := by
      rw [scope_trace_apply, apply_edits_catalogs_length]
    have hnone : (scope_trace pu edits lib).2.catalogs[w.catalog_idx]? = none := by
      rw [List.getElem?_eq_none_iff, hlen, ← List.getElem?_eq_none_iff]
      exact hcat
    have hfil : ((scope_trace pu edits lib).1.filter
        fun u => u.catalog_idx == w.catalog_idx) = [] := by
      rw [List.filter_eq_nil_iff]
      intro u hu hbeq
      have heq : u.catalog_idx = w.catalog_idx := by simpa using hbeq
      exact scope_trace_valid_idx pu edits lib u hu (heq.symm ▸ hcat)
    simp [consume_change_log, advance_watermark, hnone, hfil]
  | some cat =>
    have hwm : w.cur_watermark = cat.change_log.length := by
      unfold watcher_current at hcur
      rw [hcat] at hcur
      exact hcur
    obtain ⟨cat₂, tail, hc₂, hlog, hmap⟩ := scope_trace_logs pu edits lib hsimple
      w.catalog_idx cat hcat
    have hch : Catalog.changes w.cur_watermark (Catalog.watermark cat₂) cat₂ = tail := by
      rw [Catalog.changes, Catalog.watermark, List.take_length, hlog, hwm, List.drop_left]
    simp [consume_change_log, advance_watermark, hc₂, hch, hmap]

open UndoRedo in
theorem consume_change_log_idx {R : Type} (lib : Library R) (w : Watcher) :
    (consume_change_log lib w).2.catalog_idx = w.catalog_idx := by
  rw [consume_change_log]
  split
  · rfl
  · rfl

open UndoRedo in
theorem consume_change_log_result_current {R : Type} (lib : Library R) (w : Watcher) :
    watcher_current lib (consume_change_log lib w).2 := by
  rw [consume_change_log]
  split
  · rename_i hcat
    simp [watcher_current, hcat]
  · rename_i cat hcat
    simp [watcher_current, hcat, Catalog.watermark]

open UndoRedo in
theorem consume_watchers_fst {R : Type} (lib : Library R) :
    ∀ ws : List Watcher,
      (consume_watchers lib ws).1 = ws.flatMap fun w => (consume_change_log lib w).1 := by
  intro ws
  induction ws with
  | nil => rfl
  | cons w ws ih => simp [consume_watchers, ih]

open UndoRedo in
theorem consume_watchers_snd {R : Type} (lib : Library R) :
    ∀ ws : List Watcher,
      (consume_watchers lib ws).2.1 = ws.map fun w => (consume_change_log lib w).2 := by
  intro ws
  induction ws with
  | nil => rfl
  | cons w ws ih => simp [consume_watchers, ih]

open UndoRedo in
theorem consume_watchers_idxs {R : Type} (lib : Library R) (ws : List Watcher) :
    ((consume_watchers lib ws).2.1).map (·.catalog_idx) = ws.map (·.catalog_idx) := by
  rw [consume_watchers_snd, List.map_map]
  exact List.map_congr_left fun w _ => consume_change_log_idx lib w

open UndoRedo in
theorem consume_watchers_result_current {R : Type} (lib : Library R) (ws : List Watcher) :
    ∀ w' ∈ (consume_watchers lib ws).2.1, watcher_current lib w' := by
  rw [consume_watchers_snd]
  intro w' hw'
  obtain ⟨w, _, rfl⟩ := List.mem_map.mp hw'
  exact consume_change_log_result_current lib w

theorem flatMap_map_comp {α β γ : Type} (f : α → β) (g : β → List γ) (l : List α) :
    (l.flatMap fun a => g (f a)) = (l.map f).flatMap g := by
  induction l with
  | nil => rfl
  | cons a t ih => simp [ih]

open UndoRedo in
/-- C3: edits committed inside a combine_scope are pushed on release as
one Bundle whose members are exactly the scope trace; a single undo()
replays them in reverse order, reverting every edited record to its
pre-scope value while moving the Bundle to the redo stack; a single
redo() replays them in forward order, reapplying every edit; and when no
edits occurred inside the scope nothing is pushed.  The watchers cover
the edited catalogs with pairwise distinct indices and every edit hits
an existing record without prototype instances. -/
theorem combine_scope_bundle {R : Type} (pu : R → R → R → R) (e : UndoRedo R)
    (edits : List (Nat × Nat × R))
    (hnodup : (e.watchers.map (·.catalog_idx)).Nodup)
    (hcover : ∀ ed ∈ edits, ed.1 ∈ e.watchers.map (·.catalog_idx))
    (hsimple : ∀ ed ∈ edits, simple_target e.library ed.1 ed.2.1) :
    (edits = [] → scope_run pu edits e = combine_scope_enter e) ∧
    (edits ≠ [] →
      (scope_trace pu edits e.library).1 ≠ [] ∧
      (scope_run pu edits e).undo_stack =
        (combine_scope_enter e).undo_stack ++
          [Undoable.bundle (scope_trace pu edits e.library).1] ∧
      (undo pu (scope_run pu edits e)).undo_stack = (combine_scope_enter e).undo_stack ∧
      (undo pu (scope_run pu edits e)).redo_stack =
        [Undoable.bundle (scope_trace pu edits e.library).1] ∧
      (∀ c, records_at (undo pu (scope_run pu edits e)).library c =
        records_at e.library c) ∧
      (redo pu (undo pu (scope_run pu edits e))).undo_stack =
        (combine_scope_enter e).undo_stack ++
          [Undoable.bundle (scope_trace pu edits e.library).1] ∧
      (redo pu (undo pu (scope_run pu edits e))).redo_stack = [] ∧
      ∀ c, records_at (redo pu (undo pu (scope_run pu edits e))).library c =
        records_at (apply_edits pu edits e.library) c) := by
  have hlib1 : (combine_scope_enter e).library = e.library := rfl
  have hw1cur : ∀ w ∈ (combine_scope_enter e).watchers, watcher_current e.library w :=
    fun w hw => consume_watchers_result_current e.library e.watchers w hw
  constructor
  · intro hnil
    subst hnil
    have hcur1 : watchers_current (combine_scope_enter e) := fun w hw => hw1cur w hw
    have hufc0 := undoables_for_consumption_current hcur1
    show combine_scope_release (combine_scope_enter e) = combine_scope_enter e
    simp [combine_scope_release, hufc0]
  · intro hne
    obtain ⟨hpwlt, _⟩ := scope_trace_lsns pu edits e.library hsimple
    have htr2 : (scope_trace pu edits e.library).2 = apply_edits pu edits e.library :=
      scope_trace_apply pu edits e.library
    have hmem_ne : (scope_trace pu edits e.library).1 ≠ [] := by
      obtain ⟨ed0, rest0, heds⟩ := List.exists_cons_of_ne_nil hne
      obtain ⟨cat, w, hcat, hrec, hinst⟩ :=
        simple_target_elim (hsimple ed0 (by rw [heds]; exact List.mem_cons_self _ _))
      rw [heds, scope_trace_cons_valid pu ed0 rest0 e.library cat w hcat hrec]
      simp
    have hidxs : ((combine_scope_enter e).watchers).map (·.catalog_idx) =
        e.watchers.map (·.catalog_idx) :=
      consume_watchers_idxs e.library e.watchers
    have hcwfst : (consume_watchers (apply_edits pu edits e.library)
        (combine_scope_enter e).watchers).1 =
        (((combine_scope_enter e).watchers).map (·.catalog_idx)).flatMap
          fun c => (scope_trace pu edits e.library).1.filter fun u => u.catalog_idx == c := by
      rw [← htr2, consume_watchers_fst]
      have hcc : ∀ w ∈ (combine_scope_enter e).watchers,
          (consume_change_log (scope_trace pu edits e.library).2 w).1 =
          (scope_trace pu edits e.library).1.filter
            fun u => u.catalog_idx == w.catalog_idx := by
        intro w hw
        rw [consume_change_log_after_scope pu edits e.library w hsimple (hw1cur w hw)]
      rw [flatMap_congr_mem hcc]
      exact flatMap_map_comp (fun w : Watcher => w.catalog_idx)
        (fun c => (scope_trace pu edits e.library).1.filter fun u => u.catalog_idx == c)
        (combine_scope_enter e).watchers
    have hperm : List.Perm (consume_watchers (apply_edits pu edits e.library)
        (combine_scope_enter e).watchers).1 (scope_trace pu edits e.library).1 := by
      rw [hcwfst, hidxs]
      refine flatMap_filter_key_perm (·.catalog_idx) (scope_trace pu edits e.library).1
        (e.watchers.map (·.catalog_idx)) hnodup ?_
      intro u hu
      obtain ⟨ed', hed', heq⟩ := List.mem_map.mp (scope_trace_mem_idx pu edits e.library u hu)
      show u.catalog_idx ∈ e.watchers.map (·.catalog_idx)
      rw [← heq]
      exact hcover ed' hed'
    have hsort : sort_by_lsn (consume_watchers (apply_edits pu edits e.library)
        (combine_scope_enter e).watchers).1 = (scope_trace pu edits e.library).1 := by
      have hperm2 := (sort_by_lsn_perm ((consume_watchers (apply_edits pu edits e.library)
        (combine_scope_enter e).watchers).1)).trans hperm
      have hne_pw : List.Pairwise (fun a b => a.lsn ≠ b.lsn)
          (scope_trace pu edits e.library).1 :=
        hpwlt.imp fun h => Nat.ne_of_lt h
      have hne_sort : List.Pairwise (fun a b => a.lsn ≠ b.lsn)
          (sort_by_lsn (consume_watchers (apply_edits pu edits e.library)
            (combine_scope_enter e).watchers).1) :=
        (hperm2.pairwise_iff fun h => Ne.symm h).mpr hne_pw
      have hlt_sort : List.Pairwise (fun a b => a.lsn < b.lsn)
          (sort_by_lsn (consume_watchers (apply_edits pu edits e.library)
            (combine_scope_enter e).watchers).1) :=
        ((sort_by_lsn_sorted _).and hne_sort).imp fun hab => lt_of_le_of_ne hab.1 hab.2
      exact eq_of_perm_sorted_lt _ _ hperm2 hlt_sort hpwlt
    have hflag : (consume_watchers (apply_edits pu edits e.library)
        (combine_scope_enter e).watchers).2.2 = true := by
      by_contra hf
      have hf' : (consume_watchers (apply_edits pu edits e.library)
          (combine_scope_enter e).watchers).2.2 = false := Bool.eq_false_iff.mpr hf
      have hnil := consume_watchers_cleared_false hf'
      rw [hnil] at hsort
      exact hmem_ne hsort.symm
    have hie : (scope_trace pu edits e.library).1.isEmpty = false := by
      cases htrl : (scope_trace pu edits e.library).1 with
      | nil => exact absurd htrl hmem_ne
      | cons a t => rfl
    have hrel : scope_run pu edits e =
        { combine_scope_enter e with
          library := apply_edits pu edits e.library,
          watchers := (consume_watchers (apply_edits pu edits e.library)
            (combine_scope_enter e).watchers).2.1,
          redo_stack := [],
          undo_stack := (combine_scope_enter e).undo_stack ++
            [Undoable.bundle (scope_trace pu edits e.library).1] } := by
      show combine_scope_release
        { combine_scope_enter e with
          library := apply_edits pu edits (combine_scope_enter e).library } = _
      rw [hlib1]
      simp only [combine_scope_release, undoables_for_consumption]
      rw [hsort]
      simp [hie, hflag]
    have hrelundo : (scope_run pu edits e).undo_stack =
        (combine_scope_enter e).undo_stack ++
          [Undoable.bundle (scope_trace pu edits e.library).1] := by
      rw [hrel]
    have hcur3 : watchers_current (scope_run pu edits e) := by
      rw [hrel]
      intro w hw
      exact consume_watchers_result_current (apply_edits pu edits e.library)
        (combine_scope_enter e).watchers w hw
    have hAundo : undo pu (scope_run pu edits e) =
        advance_watermarks
          { combine_scope_enter e with
            library := ((scope_trace pu edits e.library).1.reverse.foldl
              (fun acc u => undo_record_undo pu u acc) (apply_edits pu edits e.library)),
            watchers := (consume_watchers (apply_edits pu edits e.library)
              (combine_scope_enter e).watchers).2.1,
            redo_stack := [] ++ [Undoable.bundle (scope_trace pu edits e.library).1],
            undo_stack := (combine_scope_enter e).undo_stack } := by
      rw [undo, consume_change_logs_current hcur3, hrel]
      simp only [List.getLast?_concat]
      simp only [List.dropLast_concat, undoable_undo]
    have hAu_undo_stack : (undo pu (scope_run pu edits e)).undo_stack =
        (combine_scope_enter e).undo_stack := by
      rw [hAundo]
      rfl
    have hAu_redo_stack : (undo pu (scope_run pu edits e)).redo_stack =
        [Undoable.bundle (scope_trace pu edits e.library).1] := by
      rw [hAundo]
      rfl
    have hrestored : ∀ c, records_at (undo pu (scope_run pu edits e)).library c =
        records_at e.library c := by
      intro c
      rw [hAundo]
      show records_at ((scope_trace pu edits e.library).1.reverse.foldl
        (fun acc u => undo_record_undo pu u acc) (apply_edits pu edits e.library)) c =
        records_at e.library c
      have h := scope_undo_restores pu edits e.library (scope_trace pu edits e.library).2
        hsimple (fun c' => rfl) c
      rw [htr2] at h
      exact h
    have hcur4 : watchers_current (undo pu (scope_run pu edits e)) := by
      rw [hAundo]
      exact watchers_current_release _
    have hAredo : redo pu (undo pu (scope_run pu edits e)) =
        advance_watermarks
          { combine_scope_enter e with
            library := ((scope_trace pu edits e.library).1.foldl
              (fun acc u => undo_record_redo pu u acc)
              ((scope_trace pu edits e.library).1.reverse.foldl
                (fun acc u => undo_record_undo pu u acc)
                (apply_edits pu edits e.library))),
            watchers := ((consume_watchers (apply_edits pu edits e.library)
              (combine_scope_enter e).watchers).2.1).map
                (advance_watermark ((scope_trace pu edits e.library).1.reverse.foldl
                  (fun acc u => undo_record_undo pu u acc)
                  (apply_edits pu edits e.library))),
            redo_stack := [],
            undo_stack := (combine_scope_enter e).undo_stack ++
              [Undoable.bundle (scope_trace pu edits e.library).1] } := by
      rw [redo, consume_change_logs_current hcur4, hAundo]
      simp only [List.getLast?_concat]
      simp only [List.dropLast_concat, undoable_redo]
      rfl
    have hAr_undo_stack : (redo pu (undo pu (scope_run pu edits e))).undo_stack =
        (combine_scope_enter e).undo_stack ++
          [Undoable.bundle (scope_trace pu edits e.library).1] := by
      rw [hAredo]
      rfl
    have hAr_redo_stack : (redo pu (undo pu (scope_run pu edits e))).redo_stack = [] := by
      rw [hAredo]
      rfl
    have hreapplied : ∀ c, records_at (redo pu (undo pu (scope_run pu edits e))).library c =
        records_at (apply_edits pu edits e.library) c := by
      intro c
      rw [hAredo]
      show records_at ((scope_trace pu edits e.library).1.foldl
        (fun acc u => undo_record_redo pu u acc)
        ((scope_trace pu edits e.library).1.reverse.foldl
          (fun acc u => undo_record_undo pu u acc)
          (apply_edits pu edits e.library))) c = records_at (apply_edits pu edits e.library) c
      have h2 : ∀ c', records_at ((scope_trace pu edits e.library).1.reverse.foldl
          (fun acc u => undo_record_undo pu u acc) (apply_edits pu edits e.library)) c' =
          records_at e.library c' := by
        intro c'
        have h := scope_undo_restores pu edits e.library (scope_trace pu edits e.library).2
          hsimple (fun cc => rfl) c'
        rw [htr2] at h
        exact h
      have h := scope_redo_reapplies pu edits e.library
        ((scope_trace pu edits e.library).1.reverse.foldl
          (fun acc u => undo_record_undo pu u acc) (apply_edits pu edits e.library))
        hsimple h2 c
      rw [htr2] at h
      exact h
    exact ⟨hmem_ne, hrelundo, hAu_undo_stack, hAu_redo_stack, hrestored,
      hAr_undo_stack, hAr_redo_stack, hreapplied⟩

open UndoRedo in
/-- Witness for C3: the combine-scope theorem applied to the two-catalog
engine engineC3 and the three-edit sequence editsC3. -/
theorem combine_scope_bundle_witness :
    ((engineC3.watchers.map (·.catalog_idx)).Nodup ∧
     (∀ ed ∈ editsC3, ed.1 ∈ engineC3.watchers.map (·.catalog_idx)) ∧
     (∀ ed ∈ editsC3, simple_target engineC3.library ed.1 ed.2.1)) ∧
    ((editsC3 = [] → scope_run proto_update_nat editsC3 engineC3 =
        combine_scope_enter engineC3) ∧
     (editsC3 ≠ [] →
       (scope_trace proto_update_nat editsC3 engineC3.library).1 ≠ [] ∧
       (scope_run proto_update_nat editsC3 engineC3).undo_stack =
         (combine_scope_enter engineC3).undo_stack ++
           [Undoable.bundle (scope_trace proto_update_nat editsC3 engineC3.library).1] ∧
       (undo proto_update_nat (scope_run proto_update_nat editsC3 engineC3)).undo_stack =
         (combine_scope_enter engineC3).undo_stack ∧
       (undo proto_update_nat (scope_run proto_update_nat editsC3 engineC3)).redo_stack =
         [Undoable.bundle (scope_trace proto_update_nat editsC3 engineC3.library).1] ∧
       (∀ c, records_at (undo proto_update_nat
           (scope_run proto_update_nat editsC3 engineC3)).library c =
         records_at engineC3.library c) ∧
       (redo proto_update_nat (undo proto_update_nat
           (scope_run proto_update_nat editsC3 engineC3))).undo_stack =
         (combine_scope_enter engineC3).undo_stack ++
           [Undoable.bundle (scope_trace proto_update_nat editsC3 engineC3.library).1] ∧
       (redo proto_update_nat (undo proto_update_nat
           (scope_run proto_update_nat editsC3 engineC3))).redo_stack = [] ∧
       ∀ c, records_at (redo proto_update_nat (undo proto_update_nat
           (scope_run proto_update_nat editsC3 engineC3))).library c =
         records_at (apply_edits proto_update_nat editsC3 engineC3.library) c)) := by
  have hs : ∀ ed ∈ editsC3, simple_target engineC3.library ed.1 ed.2.1 := by
    intro ed hed
    simp only [editsC3, List.mem_cons, List.not_mem_nil, or_false] at hed
    rcases hed with rfl | rfl | rfl
    · exact ⟨none, rfl⟩
    · exact ⟨none, rfl⟩
    · exact ⟨none, rfl⟩
  exact ⟨⟨by decide, by decide, hs⟩,
    combine_scope_bundle proto_update_nat engineC3 editsC3 (by decide) (by decide) hs⟩

open UndoRedo in
/-- C3 counterexample: when an in-scope edit targets a prototype, one
undo() of the released Bundle does not revert the scope.  In engineC3x,
record 0 is a prototype holding 10 and record 1 overrides it to 5; the
scope commits 5 onto record 0, so the Bundle holds the propagation pair
(0: 10 → 5, 1: 5 → 5).  Undo replays in reverse: record 1 is restored to
5, then re-committing 10 onto record 0 re-propagates, and merge_field
sees the override as matching (5 = 5) and overwrites record 1 with 10 —
not its pre-scope value 5. -/
theorem combine_scope_bundle_counterexample :
    records_at engineC3x.library 0 =
      some [⟨none, [1], 10⟩, ⟨some 0, [], 5⟩] ∧
    records_at (undo proto_update_nat
        (scope_run proto_update_nat [(0, 0, 5)] engineC3x)).library 0 =
      some [⟨none, [1], 10⟩, ⟨some 0, [], 10⟩] ∧
    records_at (undo proto_update_nat
        (scope_run proto_update_nat [(0, 0, 5)] engineC3x)).library 0 ≠
      records_at engineC3x.library 0 := by
  decide

end Kiln
